import Mathlib

/-! gotofuenv: version resolution and installation (versionmanager/manager.go)

A shallow embedding of `VersionManager` from `versionmanager/manager.go`.

* The install root is one directory whose entries are listed by `os.ReadDir`; the
  directory an extraction creates is the one `path.Join` of the install path and the
  version denotes, so a version that is not a plain path element does not give an
  entry of its own name.
* `slices.SortFunc` is the insertion sort of the library up to twelve elements; above,
  the order among elements that compare equal is a parameter.
* Every call that leaves the process (directory creation and listing, the three
  operations of the release source, the download, the extraction) appends an
  `Event` to the trace of the `World`, so that "no remote call", "no install" and
  "nothing touched" are statements about the trace.
* Go functions returning `(string, error)` return a pair `String × Option Err`:
  the code does return a version together with an error on some paths.
* Console output under `conf.Verbose` is not part of the model.
-/

namespace Gotofuenv

/-! ## Errors, directory entries, events -/

/-- The errors of the package. `emptyVersion` and `noCompatible` are the two package
sentinels `errEmptyVersion` and `errNoCompatible`; they are unexported values made by
`errors.New`, so no collaborator outside the package can hand them back. `parse` is an
error of `parsePredicate`; `external` is any error reported by the operating system,
the release source, the HTTP client or the archive extractor. -/
inductive Err where
  | emptyVersion
  | noCompatible
  | parse (msg : String)
  | external (msg : String)
  deriving DecidableEq, Repr

/-- Equality of results is decidable, so that runs of the model can be compared. -/
instance instDecidableEqExcept {ε α : Type} [DecidableEq ε] [DecidableEq α] :
    DecidableEq (Except ε α)
  | .ok a, .ok b =>
    if h : a = b then isTrue (by rw [h]) else isFalse (fun h2 => h (by cases h2; rfl))
  | .error a, .error b =>
    if h : a = b then isTrue (by rw [h]) else isFalse (fun h2 => h (by cases h2; rfl))
  | .ok _, .error _ => isFalse (fun h => by cases h)
  | .error _, .ok _ => isFalse (fun h => by cases h)

/-- One entry of `os.ReadDir`: its name and whether it is a directory. -/
structure DirEntry where
  name : String
  isDir : Bool
  deriving DecidableEq, Repr

/-- The observable calls made by the manager. -/
inductive Event where
  | mkdirAll
  | readDir
  | latestRelease
  | listReleases
  | downloadAssetUrl (version : String)
  | httpGet (url : String)
  | unzipToDir (targetPath : String)
  deriving DecidableEq, Repr

/-- Calls to the release source (`ReleaseInfoRetriever`). -/
def Event.isRetriever : Event → Bool
  | .latestRelease => true
  | .listReleases => true
  | .downloadAssetUrl _ => true
  | _ => false

/-! ## Configuration and collaborators -/

/-- The fields of `config.Config` read by the manager. -/
structure Config where
  RootPath : String
  UserPath : String
  NoInstall : Bool
  Verbose : Bool

/-- The interface `ReleaseInfoRetriever`. An error of the release source is an
opaque message. -/
structure ReleaseInfoRetriever where
  DownloadAssetUrl : String → Except String String
  LatestRelease : Except String String
  ListReleases : Except String (List String)

/-- What `zip.UnzipToDir` reports: success, or a failure that may leave the target
directory behind. -/
inductive UnzipResult where
  | done
  | failed (msg : String) (leftBehind : Bool)
  deriving DecidableEq, Repr

/-- A `VersionManager` together with the collaborators that manager.go calls but does
not define.

* `NewVersion` is `version.NewVersion` of hashicorp/go-version followed by
  `(*Version).String`: the normalized form of an exact version, or the parse error.
* `parsePredicate` is the function of the same name of the package (its file is not
  part of the sources at hand); it is taken as a parameter.
* `httpGet` is `http.Get`, returning the body; `unzip` is the outcome of
  `zip.UnzipToDir` for a body and a target path.
* `pdqsort` is the order in which the pattern-defeating quicksort of `slices.SortFunc`
  leaves a slice of more than twelve version strings (see `sortFunc`).
* `getenv` and `readFile` are `os.Getenv` and `os.ReadFile`. -/
structure Env where
  conf : Config
  FolderName : String
  retriever : ReleaseInfoRetriever
  VersionEnvName : String
  VersionFileName : String
  NewVersion : String → Except String String
  parsePredicate : String → Bool → Except String ((String → Bool) × Bool)
  httpGet : String → Except String String
  unzip : String → String → UnzipResult
  pdqsort : List String → List String
  getenv : String → String
  readFile : String → Except String String

/-- The install root on disk and the trace of calls.

* `root` is the listing of the install root, `none` when the directory does not exist.
* `mkdirErr` is the error `os.MkdirAll` meets when it has to create the root.
* `readDirErr` is the error `os.ReadDir` meets on an existing root. -/
structure World where
  root : Option (List DirEntry)
  mkdirErr : Option String
  readDirErr : Option String
  trace : List Event
  deriving DecidableEq, Repr

/-- Modelled from the spec: `config.LatestKey`, the reserved constant of the literal
"latest" keyword (package config is not part of the sources at hand). -/
def LatestKey : String := "latest"

/-! ## Paths (package path of the Go standard library) -/

/-- The elements of a path: what stands between the slashes. -/
def splitSlash : List Char → List (List Char)
  | [] => [[]]
  | c :: cs =>
    if c = '/' then [] :: splitSlash cs
    else
      match splitSlash cs with
      | e :: es => (c :: e) :: es
      | [] => [[c]]

/-- The elements written with slashes between them. -/
def joinSlash : List (List Char) → List Char
  | [] => []
  | [e] => e
  | e :: es => e ++ '/' :: joinSlash es

/-- Whether a path starts at the root of the file system. -/
def isRooted : List Char → Bool
  | '/' :: _ => true
  | _ => false

/-- One step of `path.Clean`, the elements kept so far being held last first: an empty
element and `.` are dropped; `..` removes the element before it, is dropped at the root
of the file system, and is kept at the start of a relative path; any other element is
kept. -/
def cleanStep (rooted : Bool) (stack : List (List Char)) (e : List Char) : List (List Char) :=
  if e = [] ∨ e = ['.'] then stack
  else if e = ['.', '.'] then
    match stack with
    | [] => if rooted then [] else [e]
    | top :: rest => if top = ['.', '.'] then e :: stack else rest
  else e :: stack

/-- The elements of the cleaned path. -/
def cleanElems (rooted : Bool) (elems : List (List Char)) : List (List Char) :=
  (elems.foldl (cleanStep rooted) []).reverse

/-- The cleaned path written out: a rooted path starts with a slash, an empty relative
path is `.`. -/
def renderPath (rooted : Bool) (elems : List (List Char)) : List Char :=
  if rooted then '/' :: joinSlash elems
  else if elems = [] then ['.'] else joinSlash elems

/-- The function `path.Clean`. -/
def pathClean (cs : List Char) : List Char :=
  renderPath (isRooted cs) (cleanElems (isRooted cs) (splitSlash cs))

/-- The function `path.Join` on two elements: empty elements are ignored, the others
are joined by a slash and the result is cleaned; the result is empty when both are. -/
def pathJoin (a b : String) : String :=
  if a.toList = [] then
    if b.toList = [] then "" else String.mk (pathClean b.toList)
  else if b.toList = [] then String.mk (pathClean a.toList)
  else String.mk (pathClean (a.toList ++ '/' :: b.toList))

/-- Removes the elements of the first list from the front of the second, when they are
there. -/
def stripElems : List (List Char) → List (List Char) → Option (List (List Char))
  | [], rest => some rest
  | _ :: _, [] => none
  | a :: as, b :: bs => if a = b then stripElems as bs else none

/-- The entry of the directory `root` through which `target` is reached, when `target`
lies below `root`: the first element of `target` after the elements of `root`. -/
def rootChild (root target : String) : Option String :=
  if isRooted root.toList = isRooted target.toList then
    match stripElems (cleanElems (isRooted root.toList) (splitSlash root.toList))
        (cleanElems (isRooted target.toList) (splitSlash target.toList)) with
    | some (c :: _) => if c = ['.', '.'] then none else some (String.mk c)
    | _ => none
  else none

/-- Whether a name is one plain path element: not empty, not `.`, not `..`, without a
slash. -/
def isPathElement (name : String) : Bool :=
  decide (name.toList ≠ []) && decide (name.toList ≠ ['.']) &&
    decide (name.toList ≠ ['.', '.']) && name.toList.all (fun c => decide (c ≠ '/'))

/-- A list of elements as `path.Clean` leaves it, held last first: no element is empty
or `.`, and `..` only stands at the start of a relative path. -/
def GoodStack (rooted : Bool) : List (List Char) → Prop
  | [] => True
  | e :: s =>
    e ≠ [] ∧ e ≠ ['.'] ∧
      (e = ['.', '.'] → rooted = false ∧ (s = [] ∨ ∃ r, s = ['.', '.'] :: r)) ∧
      GoodStack rooted s

/-! ## Operating system primitives on the install root -/

/-- Records an event. -/
def World.log (w : World) (e : Event) : World :=
  { w with trace := w.trace ++ [e] }

/-- The call `os.MkdirAll` on the install root: nothing changes when the directory
exists; otherwise it is created empty unless the system refuses. -/
def mkdirAllRoot (w : World) : Option String × World :=
  let w1 := w.log Event.mkdirAll
  match w1.root with
  | some _ => (none, w1)
  | none =>
    match w1.mkdirErr with
    | none => (none, { w1 with root := some [] })
    | some e => (some e, w1)

/-- The call `os.ReadDir` on the install root. -/
def readDirRoot (w : World) : Except Err (List DirEntry) × World :=
  let w1 := w.log Event.readDir
  match w1.root with
  | none => (.error (Err.external "no such file or directory"), w1)
  | some entries =>
    match w1.readDirErr with
    | none => (.ok entries, w1)
    | some e => (.error (Err.external e), w1)

/-- Whether the listing holds a directory of that name. -/
def hasDir (entries : List DirEntry) (version : String) : Bool :=
  entries.any (fun entry => entry.isDir && decide (version = entry.name))

/-- Adds the directory `version` to a listing, unless it is there already. -/
def addDir (entries : List DirEntry) (version : String) : List DirEntry :=
  if hasDir entries version then entries else entries ++ [⟨version, true⟩]

/-- The install root once the directory `targetPath` has been created: when the target
lies below the root, the entry through which it is reached is a directory of the
root; a target elsewhere leaves the listing of the root as it is. -/
def withTarget (E : Env) (targetPath : String) (w : World) : World :=
  match rootChild (pathJoin E.conf.RootPath E.FolderName) targetPath with
  | some child => { w with root := some (addDir (w.root.getD []) child) }
  | none => w

/-- Modelled from the spec: `zip.UnzipToDir` (package pkg/zip is not part of the
sources at hand). The spec says it "extracts the archive into a subdirectory named
`version` under the install root", and that a failure "may leave a partially-written
install directory". The directory is the one `targetPath` denotes; the outcome itself
is the oracle `Env.unzip`. -/
def unzipToDir (E : Env) (body targetPath : String) (w : World) : Option Err × World :=
  let w1 := w.log (Event.unzipToDir targetPath)
  match E.unzip body targetPath with
  | .done => (none, withTarget E targetPath w1)
  | .failed msg true => (some (Err.external msg), withTarget E targetPath w1)
  | .failed msg false => (some (Err.external msg), w1)

/-- Modelled from the spec: `iterate.Iterate` (package pkg/iterate is not part of the
sources at hand), the sequence received from the channel: the list itself, or the list
walked from its high end when `reverseOrder` is set ("reverse = newest-first"). -/
def Iterate (versions : List String) (reverseOrder : Bool) : List String :=
  if reverseOrder then versions.reverse else versions

/-! ## Versions (hashicorp/go-version) and the comparator -/

/-- A parsed version: numeric segments (at least three), pre-release, metadata. -/
structure Version where
  segments : List Nat
  pre : List Char
  metadata : List Char
  deriving DecidableEq, Repr

/-- The characters of a pre-release or metadata identifier: `[0-9A-Za-z\-~]`. -/
def isIdentChar (c : Char) : Bool :=
  c.isAlphanum || c == '-' || c == '~'

/-- Reads `[0-9]+(\.[0-9]+)*` from the front, as far as it goes. `cur` is the segment
being read, `acc` the segments read so far. Gives the segments and the remainder. -/
def readSegments : List Char → Option Nat → List Nat → Option (List Nat × List Char)
  | [], some n, acc => some (acc ++ [n], [])
  | [], none, _ => none
  | c :: cs, cur, acc =>
    if c.isDigit then
      readSegments cs (some (cur.getD 0 * 10 + (c.toNat - '0'.toNat))) acc
    else if c == '.' then
      match cur with
      | some n => readSegments cs none (acc ++ [n])
      | none => none
    else
      match cur with
      | some n => some (acc ++ [n], c :: cs)
      | none => none

/-- Whether the characters are `ident(\.ident)*` with non-empty identifiers;
`started` says that the identifier being read already has a character. -/
def validIdents : List Char → Bool → Bool
  | [], started => started
  | c :: cs, started =>
    if isIdentChar c then validIdents cs true
    else if c == '.' then started && validIdents cs false
    else false

/-- The pre-release part of the version pattern, applied to what stands between the
segments and the metadata: `-` followed by identifiers, or identifiers that do not
start with a digit. Gives the pre-release without the dash the pattern consumes. -/
def readPre : List Char → Option (List Char)
  | [] => some []
  | '-' :: t =>
    if validIdents t false then some t
    else if validIdents ('-' :: t) false then some ('-' :: t)
    else none
  | c :: t =>
    if validIdents (c :: t) false then some (c :: t) else none

/-- Pads the segments with zeros up to major, minor, patch. -/
def padSegments (segs : List Nat) : List Nat :=
  segs ++ List.replicate (3 - segs.length) 0

/-- The function `version.NewVersion` on the characters of the string: an optional
`v`, the numeric segments (each within int64), an optional pre-release and an optional
`+metadata`. -/
def parseChars (cs : List Char) : Option Version :=
  let body := match cs with
    | 'v' :: r => r
    | r => r
  match readSegments body none [] with
  | none => none
  | some (segs, rest) =>
    if segs.all (fun n => decide (n < 2 ^ 63)) then
      let p := rest.takeWhile (fun c => c != '+')
      let m := rest.dropWhile (fun c => c != '+')
      match readPre p, m with
      | some pre, [] => some ⟨padSegments segs, pre, []⟩
      | some pre, _ :: md =>
        if validIdents md false then some ⟨padSegments segs, pre, md⟩ else none
      | none, _ => none
    else none

/-- The function `version.NewVersion`. -/
def parseVersion (s : String) : Option Version :=
  parseChars s.toList

/-- The method `(*Version).String`: segments joined by dots, then `-pre`, then
`+metadata`. -/
def Version.String (v : Version) : String :=
  ".".intercalate (v.segments.map toString)
    ++ (if v.pre = [] then "" else "-" ++ String.mk v.pre)
    ++ (if v.metadata = [] then "" else "+" ++ String.mk v.metadata)

/-- The function `version.NewVersion` followed by `String`, as `Env.NewVersion`
expects it. -/
def goNewVersion (s : String) : Except String String :=
  match parseVersion s with
  | some v => .ok v.String
  | none => .error ("Malformed version: " ++ s)

/-- One dot-separated identifier of a pre-release: numeric, or text given by its
character codes. -/
inductive PreId where
  | num (n : Nat)
  | text (codes : List Nat)
  deriving DecidableEq, Repr

/-- The value of a string of digits. -/
def digitsValue (cs : List Char) : Nat :=
  cs.foldl (fun n c => n * 10 + (c.toNat - '0'.toNat)) 0

/-- Classifies one identifier. -/
def toPreId (cs : List Char) : PreId :=
  if cs.all Char.isDigit && !cs.isEmpty then PreId.num (digitsValue cs)
  else PreId.text (cs.map Char.toNat)

/-- Splits at the dots; `cur` is the identifier being read, in reverse. -/
def splitDots : List Char → List Char → List (List Char)
  | [], cur => [cur.reverse]
  | c :: cs, cur =>
    if c == '.' then cur.reverse :: splitDots cs [] else splitDots cs (c :: cur)

/-- The identifiers of a pre-release; none for a release. -/
def preIds (pre : List Char) : List PreId :=
  if pre = [] then [] else (splitDots pre []).map toPreId

/-- Lexicographic comparison of two lists; a proper initial part comes first. -/
def cmpList {α : Type} (cmp : α → α → Ordering) : List α → List α → Ordering
  | [], [] => .eq
  | [], _ :: _ => .lt
  | _ :: _, [] => .gt
  | a :: as, b :: bs => (cmp a b).then (cmpList cmp as bs)

/-- Pre-release identifiers: numeric ones by value, text ones by character codes, a
numeric one before a text one. -/
def cmpPreId : PreId → PreId → Ordering
  | .num a, .num b => compare a b
  | .num _, .text _ => .lt
  | .text _, .num _ => .gt
  | .text a, .text b => cmpList compare a b

/-- Pre-releases: a version without one is greater than the same version with one. -/
def cmpPre : List PreId → List PreId → Ordering
  | [], [] => .eq
  | [], _ :: _ => .gt
  | _ :: _, [] => .lt
  | a :: as, b :: bs => cmpList cmpPreId (a :: as) (b :: bs)

/-- Semantic-version precedence of two parsed versions: the numeric segments first,
then the pre-releases. Metadata does not take part. -/
def Version.Compare (a b : Version) : Ordering :=
  (cmpList compare a.segments b.segments).then (cmpPre (preIds a.pre) (preIds b.pre))

/-- Modelled from the spec: `cmpVersion` (its file is not part of the sources at hand):
"standard semantic-version precedence: numeric comparison of major/minor/patch; a
version with a pre-release identifier is strictly less than the same numeric version
without one; pre-release identifiers compare lexically/numerically per standard semver
pre-release rules". The spec compares versions only; here a string that is not a
version comes before every version and equals every other such string, which keeps
the comparator a total preorder on all strings. -/
def cmpVersion (a b : String) : Ordering :=
  match parseVersion a, parseVersion b with
  | none, none => .eq
  | none, some _ => .lt
  | some _, none => .gt
  | some va, some vb => va.Compare vb

/-- The leftward walk of one element in the insertion sort of `slices.SortFunc`: the
sorted part is held from its high end (`rev`), and `x` moves past every element it
is strictly less than. -/
def insertDesc {α : Type} (cmp : α → α → Ordering) (x : α) : List α → List α
  | [] => [x]
  | y :: rev => if cmp x y = .lt then y :: insertDesc cmp x rev else x :: y :: rev

/-- The insertion sort of the Go standard library (`insertionSortCmpFunc`): elements
are inserted from left to right, each moving left while it is strictly less than its
neighbour. -/
def insertionSort {α : Type} (cmp : α → α → Ordering) (xs : List α) : List α :=
  (xs.foldl (fun rev x => insertDesc cmp x rev) []).reverse

/-- Whether `ys` is a permutation of `xs` in which no element is greater than a later
one. -/
def isSortedPerm {α : Type} [DecidableEq α] (cmp : α → α → Ordering) (ys xs : List α) : Bool :=
  decide (ys.Perm xs) && decide (ys.Pairwise (fun a b => cmp a b ≠ .gt))

/-- The function `slices.SortFunc` of the Go standard library. On a slice of at most
twelve elements the library runs the insertion sort. On a longer slice it runs a
pattern-defeating quicksort, which is not stable: the library promises a sorted
permutation and nothing about the order of elements that compare equal. That order is
the parameter `pdqsort`: every sorted permutation of the input is a possible value of
it, and a value that is no sorted permutation is not a run of the library and is
replaced by the insertion sort. -/
def sortFunc {α : Type} [DecidableEq α] (pdqsort : List α → List α)
    (cmp : α → α → Ordering) (xs : List α) : List α :=
  if xs.length ≤ 12 then insertionSort cmp xs
  else if isSortedPerm cmp (pdqsort xs) xs then pdqsort xs
  else insertionSort cmp xs

/-! ## The version manager (manager.go) -/

/-- The method `InstallPath`: joins the root path and the folder name and tries to make
sure the directory exists; a failure of `os.MkdirAll` is only printed. -/
def InstallPath (E : Env) (w : World) : String × World :=
  let dir := pathJoin E.conf.RootPath E.FolderName
  (dir, (mkdirAllRoot w).2)

/-- The method `ListLocal`: the names of the directories of the install root, sorted
with `cmpVersion`. -/
def ListLocal (E : Env) (w : World) : Except Err (List String) × World :=
  let w1 := (InstallPath E w).2
  match readDirRoot w1 with
  | (.error err, w2) => (.error err, w2)
  | (.ok entries, w2) =>
    let versions := (entries.filter (fun entry => entry.isDir)).map (fun entry => entry.name)
    (.ok (sortFunc E.pdqsort cmpVersion versions), w2)

/-- The names of the directories of the install root, in the order of the listing. -/
def dirNames (w : World) : List String :=
  ((w.root.getD []).filter (fun entry => entry.isDir)).map (fun entry => entry.name)

/-- The method `ListRemote`: the releases of the release source, sorted with
`cmpVersion`. -/
def ListRemote (E : Env) (w : World) : Except Err (List String) × World :=
  let w1 := w.log Event.listReleases
  match E.retriever.ListReleases with
  | .error err => (.error (Err.external err), w1)
  | .ok versions => (.ok (sortFunc E.pdqsort cmpVersion versions), w1)

/-- The method `installSpecificVersion`. -/
def installSpecificVersion (E : Env) (version : String) (w : World) : Option Err × World :=
  if version = "" then (some Err.emptyVersion, w)
  else
    let installPath := (InstallPath E w).1
    let w1 := (InstallPath E w).2
    match readDirRoot w1 with
    | (.error err, w2) => (some err, w2)
    | (.ok entries, w2) =>
      if hasDir entries version then (none, w2)
      else
        let w3 := w2.log (Event.downloadAssetUrl version)
        match E.retriever.DownloadAssetUrl version with
        | .error err => (some (Err.external err), w3)
        | .ok downloadUrl =>
          let w4 := w3.log (Event.httpGet downloadUrl)
          match E.httpGet downloadUrl with
          | .error err => (some (Err.external err), w4)
          | .ok body => unzipToDir E body (pathJoin installPath version) w4

/-- The method `installLatest`. -/
def installLatest (E : Env) (w : World) : (String × Option Err) × World :=
  let w1 := w.log Event.latestRelease
  match E.retriever.LatestRelease with
  | .error err => (("", some (Err.external err)), w1)
  | .ok latestVersion =>
    let r := installSpecificVersion E latestVersion w1
    ((latestVersion, r.1), r.2)

/-- The call `m.retriever.LatestRelease()` returned as it is (detect, line 243). -/
def latestRelease (E : Env) (w : World) : (String × Option Err) × World :=
  let w1 := w.log Event.latestRelease
  match E.retriever.LatestRelease with
  | .error err => (("", some (Err.external err)), w1)
  | .ok latestVersion => ((latestVersion, none), w1)

/-- The method `searchInstallRemote`. -/
def searchInstallRemote (E : Env) (predicate : String → Bool) (noInstall reverseOrder : Bool)
    (w : World) : (String × Option Err) × World :=
  match ListRemote E w with
  | (.error err, w1) => (("", some err), w1)
  | (.ok versions, w1) =>
    match (Iterate versions reverseOrder).find? predicate with
    | some version =>
      if noInstall then ((version, none), w1)
      else
        let r := installSpecificVersion E version w1
        ((version, r.1), r.2)
    | none => (("", some Err.noCompatible), w1)

/-- The end of `detect` (lines 241 to 247): the latest release when the request is the
literal `LatestKey`, the remote search otherwise. -/
def detectRemote (E : Env) (requestedVersion : String) (predicate : String → Bool)
    (reverseOrder : Bool) (w : World) : (String × Option Err) × World :=
  if requestedVersion = LatestKey then
    if E.conf.NoInstall then latestRelease E w else installLatest E w
  else searchInstallRemote E predicate E.conf.NoInstall reverseOrder w

/-- The method `detect`. -/
def detect (E : Env) (requestedVersion : String) (localCheck : Bool) (w : World) :
    (String × Option Err) × World :=
  match E.NewVersion requestedVersion with
  | .ok cleanedVersion =>
    if E.conf.NoInstall then ((cleanedVersion, none), w)
    else
      let r := installSpecificVersion E cleanedVersion w
      ((cleanedVersion, r.1), r.2)
  | .error _ =>
    match E.parsePredicate requestedVersion E.conf.Verbose with
    | .error err => (("", some (Err.parse err)), w)
    | .ok (predicate, reverseOrder) =>
      if localCheck then
        match ListLocal E w with
        | (.error err, w1) => (("", some err), w1)
        | (.ok versions, w1) =>
          match (Iterate versions reverseOrder).find? predicate with
          | some version => ((version, none), w1)
          | none =>
            if E.conf.NoInstall then (("", some Err.noCompatible), w1)
            else detectRemote E requestedVersion predicate reverseOrder w1
      else detectRemote E requestedVersion predicate reverseOrder w

/-- The method `Detect`. -/
def Detect (E : Env) (requestedVersion : String) (w : World) :
    (String × Option Err) × World :=
  detect E requestedVersion true w

/-- The method `Install`. -/
def Install (E : Env) (requestedVersion : String) (w : World) : Option Err × World :=
  match E.NewVersion requestedVersion with
  | .ok cleanedVersion => installSpecificVersion E cleanedVersion w
  | .error _ =>
    if requestedVersion = LatestKey then
      let r := installLatest E w
      (r.1.2, r.2)
    else
      match E.parsePredicate requestedVersion E.conf.Verbose with
      | .error err => (some (Err.parse err), w)
      | .ok (predicate, reverseOrder) =>
        let r := searchInstallRemote E predicate false reverseOrder w
        (r.1.2, r.2)

/-- The method `RootVersionFilePath`. -/
def RootVersionFilePath (E : Env) : String :=
  pathJoin E.conf.RootPath E.VersionFileName

/-- The White_Space characters of `unicode.IsSpace`. -/
def isSpace (c : Char) : Bool :=
  c == '\t' || c == '\n' || c == Char.ofNat 0x0B || c == Char.ofNat 0x0C || c == '\r'
    || c == ' ' || c == Char.ofNat 0x85 || c == Char.ofNat 0xA0 || c == Char.ofNat 0x1680
    || (decide (0x2000 ≤ c.toNat) && decide (c.toNat ≤ 0x200A))
    || c == Char.ofNat 0x2028 || c == Char.ofNat 0x2029 || c == Char.ofNat 0x202F
    || c == Char.ofNat 0x205F || c == Char.ofNat 0x3000

/-- The function `bytes.TrimSpace` on the characters of the data: leading and trailing
white space removed. -/
def trimSpaceChars (cs : List Char) : List Char :=
  ((cs.dropWhile isSpace).reverse.dropWhile isSpace).reverse

/-- The function `bytes.TrimSpace` followed by the conversion to a string. -/
def TrimSpace (data : String) : String :=
  String.mk (trimSpaceChars data.toList)

/-- The method `Resolve`. -/
def Resolve (E : Env) (defaultVersion : String) : String :=
  if E.getenv E.VersionEnvName ≠ "" then E.getenv E.VersionEnvName
  else
    match E.readFile E.VersionFileName with
    | .ok data => TrimSpace data
    | .error _ =>
      match E.readFile (pathJoin E.conf.UserPath E.VersionFileName) with
      | .ok data => TrimSpace data
      | .error _ =>
        match E.readFile (RootVersionFilePath E) with
        | .ok data => TrimSpace data
        | .error _ => defaultVersion

/-- Where the name given to an extraction comes from, path by path: the normalized
request on the exact-version path; the answer of `LatestRelease` on the latest path;
an element of the answer of `ListReleases` that satisfies the parsed predicate on the
remote-search path. -/
def NameOrigin (E : Env) (requested name : String) : Prop :=
  (∀ c, E.NewVersion requested = .ok c → name = c) ∧
    (∀ e, E.NewVersion requested = .error e → requested = LatestKey →
      E.retriever.LatestRelease = .ok name) ∧
    (∀ e, E.NewVersion requested = .error e → requested ≠ LatestKey →
      ∃ predicate reverseOrder L,
        E.parsePredicate requested E.conf.Verbose = .ok (predicate, reverseOrder) ∧
        E.retriever.ListReleases = .ok L ∧ name ∈ L ∧ predicate name = true)

/-! ## Concrete collaborators, to run the model -/

/-- A release source with a fixed latest release and a fixed list of releases. -/
def demoRetriever (latest : String) (releases : List String) : ReleaseInfoRetriever where
  DownloadAssetUrl := fun version => .ok ("asset/" ++ version ++ ".zip")
  LatestRelease := .ok latest
  ListReleases := .ok releases

/-- A predicate parser for the runs: the latest keyword matches everything, newest
first; `>=V` for a version `V` matches the versions that are not below `V`, newest
first; anything else is a malformed constraint. -/
def demoParsePredicate (requestedVersion : String) (_verbose : Bool) :
    Except String ((String → Bool) × Bool) :=
  if requestedVersion = LatestKey then .ok (fun _ => true, true)
  else
    match requestedVersion.toList with
    | '>' :: '=' :: rest =>
      match parseChars rest with
      | some _ =>
        .ok (fun v => (parseVersion v).isSome && cmpVersion v (String.mk rest) != .lt, true)
      | none => .error ("Malformed constraint: " ++ requestedVersion)
    | _ => .error ("Malformed constraint: " ++ requestedVersion)

/-- A manager over `demoRetriever`, with go-version as the version library, downloads
and extractions that succeed, a quicksort that keeps the order of elements comparing
equal, no environment variable and no pointer file. -/
def demoEnv (noInstall : Bool) (latest : String) (releases : List String) : Env where
  conf := ⟨"/opt/gotofuenv", "/home/user", noInstall, false⟩
  FolderName := "OpenTofu"
  retriever := demoRetriever latest releases
  VersionEnvName := "GOTOFUENV_TOFU_VERSION"
  VersionFileName := ".opentofu-version"
  NewVersion := goNewVersion
  parsePredicate := demoParsePredicate
  httpGet := fun url => .ok ("body of " ++ url)
  unzip := fun _ _ => UnzipResult.done
  pdqsort := insertionSort cmpVersion
  getenv := fun _ => ""
  readFile := fun _ => .error "no such file or directory"

/-- An install root holding exactly the given version directories, with an empty
trace. -/
def worldWith (versions : List String) : World :=
  ⟨some (versions.map (fun v => ⟨v, true⟩)), none, none, []⟩

/-- Thirteen releases in ascending order; the last two compare equal. -/
def thirteenReleases : List String :=
  ["1.0.0", "1.1.0", "1.2.0", "1.3.0", "1.4.0", "1.5.0", "1.6.0", "1.7.0", "1.8.0", "1.9.0",
    "1.10.0", "2.0.0", "v2.0.0"]

/-- The same releases with the last two exchanged: ascending as well. -/
def thirteenSwapped : List String :=
  ["1.0.0", "1.1.0", "1.2.0", "1.3.0", "1.4.0", "1.5.0", "1.6.0", "1.7.0", "1.8.0", "1.9.0",
    "1.10.0", "v2.0.0", "2.0.0"]

/-- A variant of `demoEnv` in which the environment variable holds `value` and the
pointer files are the given pairs of path and content. -/
def resolveEnv (value : String) (files : List (String × String)) : Env :=
  { demoEnv false "2.0.0" ["2.0.0"] with
    getenv := fun name => if name = "GOTOFUENV_TOFU_VERSION" then value else ""
    readFile := fun path =>
      match files.lookup path with
      | some data => .ok data
      | none => .error "no such file or directory" }

/-! ## Resolve: the lookup of the spec and the lookup of the code -/

/-- The content of a file, when it can be read. -/
def readOpt (E : Env) (path : String) : Option String :=
  match E.readFile path with
  | .ok data => some data
  | .error _ => none

/-- The pointer files in priority order: working directory, user scope, root scope. -/
def pointerFiles (E : Env) : List String :=
  [E.VersionFileName, pathJoin E.conf.UserPath E.VersionFileName, RootVersionFilePath E]

/-- The reference lookup in the words of the spec: the environment variable and the
three pointer files are considered in priority order, each value trimmed of
surrounding white space, and the first one that is not empty is the result; the
default version when there is none. -/
def resolveReference (E : Env) (defaultVersion : String) : String :=
  let values := some (E.getenv E.VersionEnvName) :: (pointerFiles E).map (readOpt E)
  match (values.filterMap (fun v => v.map TrimSpace)).find? (fun v => v ≠ "") with
  | some v => v
  | none => defaultVersion

/-- The lookup the code performs: the environment variable as it is when it is not
empty; otherwise the trimmed content of the first pointer file that can be read;
otherwise the default version. -/
def resolveLookup (E : Env) (defaultVersion : String) : String :=
  if E.getenv E.VersionEnvName ≠ "" then E.getenv E.VersionEnvName
  else
    match (pointerFiles E).findSome? (readOpt E) with
    | some data => TrimSpace data
    | none => defaultVersion

/-- Whether a string neither starts nor ends with white space. -/
def isTrimmed (s : String) : Bool :=
  !(s.toList.head?.any isSpace) && !(s.toList.getLast?.any isSpace)

/-! ## The comparator is a total preorder -/

section Comparator

open Batteries

/-- When the combination of a first and a second comparison is not "greater". -/
theorem then_ne_gt_iff (o₁ o₂ : Ordering) :
    o₁.then o₂ ≠ .gt ↔ o₁ = .lt ∨ (o₁ = .eq ∧ o₂ ≠ .gt) := by
  cases o₁ <;> simp [Ordering.then]

theorem cmpList_swap {α : Type} (cmp : α → α → Ordering) [OrientedCmp cmp] :
    ∀ xs ys : List α, (cmpList cmp xs ys).swap = cmpList cmp ys xs
  | [], [] => rfl
  | [], _ :: _ => rfl
  | _ :: _, [] => rfl
  | a :: as, b :: bs => by
    simp only [cmpList, Ordering.swap_then]
    rw [(OrientedCmp.symm a b : (cmp a b).swap = cmp b a), cmpList_swap cmp as bs]

theorem cmpList_le_trans {α : Type} (cmp : α → α → Ordering) [TransCmp cmp] :
    ∀ xs ys zs : List α, cmpList cmp xs ys ≠ .gt → cmpList cmp ys zs ≠ .gt →
      cmpList cmp xs zs ≠ .gt
  | [], [], _, _, h => h
  | [], _ :: _, [], _, h => by simp [cmpList] at h
  | [], _ :: _, _ :: _, _, _ => by simp [cmpList]
  | _ :: _, [], _, h, _ => by simp [cmpList] at h
  | _ :: _, _ :: _, [], _, h => by simp [cmpList] at h
  | a :: as, b :: bs, c :: cs, h₁, h₂ => by
    simp only [cmpList, then_ne_gt_iff] at h₁ h₂ ⊢
    rcases h₁ with hab | ⟨hab, h₁⟩
    · rcases h₂ with hbc | ⟨hbc, _⟩
      · exact Or.inl (TransCmp.lt_trans hab hbc)
      · exact Or.inl (TransCmp.lt_le_trans hab (by simp [hbc]))
    · rcases h₂ with hbc | ⟨hbc, h₂⟩
      · exact Or.inl (TransCmp.le_lt_trans (by simp [hab]) hbc)
      · refine Or.inr ⟨?_, cmpList_le_trans cmp as bs cs h₁ h₂⟩
        rw [TransCmp.cmp_congr_left hab]
        exact hbc

instance instOrientedCmpList {α : Type} (cmp : α → α → Ordering) [OrientedCmp cmp] :
    OrientedCmp (cmpList cmp) where
  symm := cmpList_swap cmp

instance instTransCmpList {α : Type} (cmp : α → α → Ordering) [TransCmp cmp] :
    TransCmp (cmpList cmp) where
  le_trans := cmpList_le_trans cmp _ _ _

instance instOrientedCmpPreId : OrientedCmp cmpPreId where
  symm x y := by
    cases x <;> cases y <;> simp only [cmpPreId, Ordering.swap]
    · exact @OrientedCmp.symm _ (compare : Nat → Nat → Ordering) _ _ _
    · exact @OrientedCmp.symm _ (cmpList (compare : Nat → Nat → Ordering)) _ _ _

instance instTransCmpPreId : TransCmp cmpPreId where
  le_trans {x y z} h₁ h₂ := by
    cases x <;> cases y <;> cases z <;> simp only [cmpPreId] at h₁ h₂ ⊢ <;>
      first
      | exact @TransCmp.le_trans _ (compare : Nat → Nat → Ordering) _ _ _ _ h₁ h₂
      | exact @TransCmp.le_trans _ (cmpList (compare : Nat → Nat → Ordering)) _ _ _ _ h₁ h₂
      | exact absurd rfl h₁
      | exact absurd rfl h₂
      | exact Ordering.noConfusion

instance instOrientedCmpPre : OrientedCmp cmpPre where
  symm x y := by
    cases x <;> cases y <;> simp only [cmpPre, Ordering.swap]
    exact @OrientedCmp.symm _ (cmpList cmpPreId) _ _ _

instance instTransCmpPre : TransCmp cmpPre where
  le_trans {x y z} h₁ h₂ := by
    cases x <;> cases y <;> cases z <;> simp only [cmpPre] at h₁ h₂ ⊢ <;>
      first
      | exact @TransCmp.le_trans _ (cmpList cmpPreId) _ _ _ _ h₁ h₂
      | exact absurd rfl h₁
      | exact absurd rfl h₂
      | exact Ordering.noConfusion

/-- The comparison of parsed versions, as a combination of two comparisons by key. -/
theorem versionCompare_eq :
    Version.Compare =
      compareLex (Ordering.byKey Version.segments (cmpList (compare : Nat → Nat → Ordering)))
        (Ordering.byKey (fun v => preIds v.pre) cmpPre) := by
  funext a b
  rfl

instance instTransCmpVersion : TransCmp Version.Compare := by
  rw [versionCompare_eq]
  infer_instance

instance instOrientedCmpVersion : OrientedCmp cmpVersion where
  symm a b := by
    unfold cmpVersion
    cases parseVersion a <;> cases parseVersion b <;> simp only [Ordering.swap]
    exact @OrientedCmp.symm _ Version.Compare _ _ _

instance instTransCmpVersion2 : TransCmp cmpVersion where
  le_trans {a b c} h₁ h₂ := by
    unfold cmpVersion at h₁ h₂ ⊢
    revert h₁ h₂
    cases parseVersion a <;> cases parseVersion b <;> cases parseVersion c <;>
      intro h₁ h₂ <;> simp only at h₁ h₂ ⊢ <;>
      first
      | exact @TransCmp.le_trans _ Version.Compare _ _ _ _ h₁ h₂
      | exact absurd rfl h₁
      | exact absurd rfl h₂
      | exact Ordering.noConfusion

end Comparator

/-! ## The sort gives a sorted permutation -/

section Sorting

open Batteries

variable {α : Type} (cmp : α → α → Ordering)

theorem insertDesc_perm (x : α) : ∀ rev : List α, (insertDesc cmp x rev).Perm (x :: rev)
  | [] => List.Perm.refl _
  | y :: rev => by
    unfold insertDesc
    split
    · exact ((insertDesc_perm x rev).cons y).trans (List.Perm.swap x y rev)
    · exact List.Perm.refl _

theorem foldl_insertDesc_perm :
    ∀ (xs acc : List α), (xs.foldl (fun rev x => insertDesc cmp x rev) acc).Perm (xs ++ acc)
  | [], acc => List.Perm.refl acc
  | x :: xs, acc => by
    simp only [List.foldl_cons, List.cons_append]
    refine (foldl_insertDesc_perm xs (insertDesc cmp x acc)).trans ?_
    refine ((insertDesc_perm cmp x acc).append_left xs).trans ?_
    exact List.perm_middle

/-- The insertion sort keeps exactly the elements it is given. -/
theorem insertionSort_perm (xs : List α) : (insertionSort cmp xs).Perm xs := by
  unfold insertionSort
  refine (List.reverse_perm _).trans ?_
  simpa using foldl_insertDesc_perm cmp xs []

theorem insertDesc_pairwise [TransCmp cmp] (x : α) :
    ∀ rev : List α, rev.Pairwise (fun a b => cmp a b ≠ .lt) →
      (insertDesc cmp x rev).Pairwise (fun a b => cmp a b ≠ .lt)
  | [], _ => by simp [insertDesc]
  | y :: rev, h => by
    rw [List.pairwise_cons] at h
    unfold insertDesc
    split
    · rename_i hlt
      rw [List.pairwise_cons]
      refine ⟨fun w hw => ?_, insertDesc_pairwise x rev h.2⟩
      rcases List.mem_cons.1 ((insertDesc_perm cmp x rev).mem_iff.1 hw) with rfl | hw
      · intro h3
        have h4 : cmp w y = .gt := OrientedCmp.cmp_eq_gt.2 h3
        rw [hlt] at h4
        exact Ordering.noConfusion h4
      · exact h.1 w hw
    · rename_i hnlt
      rw [List.pairwise_cons]
      refine ⟨fun w hw => ?_, List.pairwise_cons.2 h⟩
      rcases List.mem_cons.1 hw with rfl | hw
      · exact hnlt
      · exact TransCmp.ge_trans hnlt (h.1 w hw)

theorem foldl_insertDesc_pairwise [TransCmp cmp] :
    ∀ (xs acc : List α), acc.Pairwise (fun a b => cmp a b ≠ .lt) →
      (xs.foldl (fun rev x => insertDesc cmp x rev) acc).Pairwise (fun a b => cmp a b ≠ .lt)
  | [], _, h => h
  | x :: xs, acc, h => by
    simp only [List.foldl_cons]
    exact foldl_insertDesc_pairwise xs _ (insertDesc_pairwise cmp x acc h)

/-- The insertion sort is ascending: no element is greater than a later one. -/
theorem insertionSort_sorted [TransCmp cmp] (xs : List α) :
    (insertionSort cmp xs).Pairwise (fun a b => cmp a b ≠ .gt) := by
  unfold insertionSort
  rw [List.pairwise_reverse]
  refine (foldl_insertDesc_pairwise cmp xs [] List.Pairwise.nil).imp ?_
  intro a b h
  exact (OrientedCmp.cmp_ne_gt : cmp b a ≠ .gt ↔ cmp a b ≠ .lt).2 h

/-- The sort keeps exactly the elements it is given, whatever the quicksort does. -/
theorem sortFunc_perm [DecidableEq α] (pdqsort : List α → List α) (xs : List α) :
    (sortFunc pdqsort cmp xs).Perm xs := by
  unfold sortFunc
  split
  · exact insertionSort_perm cmp xs
  · split
    · rename_i h
      simp only [isSortedPerm, Bool.and_eq_true, decide_eq_true_eq] at h
      exact h.1
    · exact insertionSort_perm cmp xs

theorem mem_sortFunc [DecidableEq α] (pdqsort : List α → List α) (xs : List α) (a : α) :
    a ∈ sortFunc pdqsort cmp xs ↔ a ∈ xs :=
  (sortFunc_perm cmp pdqsort xs).mem_iff

/-- The sort is ascending, whatever the quicksort does. -/
theorem sortFunc_sorted [DecidableEq α] [TransCmp cmp] (pdqsort : List α → List α)
    (xs : List α) : (sortFunc pdqsort cmp xs).Pairwise (fun a b => cmp a b ≠ .gt) := by
  unfold sortFunc
  split
  · exact insertionSort_sorted cmp xs
  · split
    · rename_i h
      simp only [isSortedPerm, Bool.and_eq_true, decide_eq_true_eq] at h
      exact h.2
    · exact insertionSort_sorted cmp xs

/-- On at most twelve elements the sort is the insertion sort. -/
theorem sortFunc_short [DecidableEq α] (pdqsort : List α → List α) (xs : List α)
    (h : xs.length ≤ 12) : sortFunc pdqsort cmp xs = insertionSort cmp xs := by
  unfold sortFunc
  rw [if_pos h]

/-- On more than twelve elements every sorted permutation of the input is a result of
the sort, for the quicksort that yields it. -/
theorem sortFunc_long [DecidableEq α] (pdqsort : List α → List α) (xs : List α)
    (h : 12 < xs.length) (hperm : (pdqsort xs).Perm xs)
    (hsorted : (pdqsort xs).Pairwise (fun a b => cmp a b ≠ .gt)) :
    sortFunc pdqsort cmp xs = pdqsort xs := by
  unfold sortFunc
  rw [if_neg (Nat.not_le.2 h)]
  simp [isSortedPerm, hperm, hsorted]

/-- In an ascending list the first element that satisfies a predicate is a least one
among those that satisfy it. -/
theorem find?_least [OrientedCmp cmp] (p : α → Bool) :
    ∀ xs : List α, xs.Pairwise (fun a b => cmp a b ≠ .gt) → ∀ v, xs.find? p = some v →
      ∀ u ∈ xs, p u = true → cmp v u ≠ .gt
  | [], _, _, h, _, _, _ => by simp at h
  | x :: xs, hs, v, h, u, hu, hpu => by
    rw [List.pairwise_cons] at hs
    rw [List.find?_cons] at h
    cases hpx : p x with
    | true =>
      rw [hpx] at h
      cases h
      rcases List.mem_cons.1 hu with rfl | hu
      · rw [(OrientedCmp.cmp_refl : cmp u u = .eq)]
        exact Ordering.noConfusion
      · exact hs.1 u hu
    | false =>
      rw [hpx] at h
      rcases List.mem_cons.1 hu with rfl | hu
      · rw [hpx] at hpu
        exact Bool.noConfusion hpu
      · exact find?_least p xs hs.2 v h u hu hpu

/-- Walking an ascending list from its high end, the first element that satisfies a
predicate is a greatest one among those that satisfy it. -/
theorem find?_reverse_greatest [OrientedCmp cmp] (p : α → Bool) (xs : List α)
    (hs : xs.Pairwise (fun a b => cmp a b ≠ .gt)) (v : α) (h : xs.reverse.find? p = some v)
    (u : α) (hu : u ∈ xs) (hpu : p u = true) : cmp u v ≠ .gt := by
  have hrev : xs.reverse.Pairwise (fun a b => flip cmp a b ≠ .gt) := by
    rw [List.pairwise_reverse]
    exact hs
  exact find?_least (flip cmp) p xs.reverse hrev v h u (List.mem_reverse.2 hu) hpu

end Sorting


/-! ## Paths: joining a plain element gives a child -/

theorem splitSlash_noSlash : ∀ cs : List Char, (∀ c ∈ cs, c ≠ '/') → splitSlash cs = [cs]
  | [], _ => rfl
  | c :: cs, h => by
    have hc : c ≠ '/' := h c (List.mem_cons_self c cs)
    have ih := splitSlash_noSlash cs (fun d hd => h d (List.mem_cons_of_mem c hd))
    simp only [splitSlash, hc, if_false, ih]

theorem splitSlash_ne_nil : ∀ cs : List Char, splitSlash cs ≠ []
  | [] => by simp [splitSlash]
  | c :: cs => by
    unfold splitSlash
    split
    · simp
    · split <;> simp

theorem splitSlash_slash (cs : List Char) : splitSlash ('/' :: cs) = [] :: splitSlash cs := by
  simp [splitSlash]

theorem splitSlash_cons (c : Char) (cs e : List Char) (es : List (List Char)) (hc : c ≠ '/')
    (hs : splitSlash cs = e :: es) : splitSlash (c :: cs) = (c :: e) :: es := by
  simp [splitSlash, hc, hs]

theorem splitSlash_append : ∀ a b : List Char,
    splitSlash (a ++ '/' :: b) = splitSlash a ++ splitSlash b
  | [], b => by
    rw [List.nil_append, splitSlash_slash]
    rfl
  | c :: a, b => by
    have ih := splitSlash_append a b
    rw [List.cons_append]
    by_cases hc : c = '/'
    · subst hc
      rw [splitSlash_slash, splitSlash_slash, ih]
      rfl
    · cases hs : splitSlash a with
      | nil => exact absurd hs (splitSlash_ne_nil a)
      | cons e es =>
        rw [hs] at ih
        rw [splitSlash_cons c a e es hc hs,
          splitSlash_cons c (a ++ '/' :: b) e (es ++ splitSlash b) hc ih]
        rfl

theorem splitSlash_mem : ∀ (cs : List Char), ∀ e ∈ splitSlash cs, ∀ c ∈ e, c ≠ '/'
  | [], e, he, c, hc => by
    simp only [splitSlash, List.mem_singleton] at he
    subst he
    simp at hc
  | d :: cs, e, he, c, hc => by
    have ih := splitSlash_mem cs
    by_cases hd : d = '/'
    · simp only [splitSlash, hd, if_true, List.mem_cons] at he
      rcases he with rfl | he
      · simp at hc
      · exact ih e he c hc
    · simp only [splitSlash, hd, if_false] at he
      cases hs : splitSlash cs with
      | nil => exact absurd hs (splitSlash_ne_nil cs)
      | cons e0 es =>
        rw [hs] at he ih
        simp only [List.mem_cons] at he
        rcases he with rfl | he
        · rcases List.mem_cons.1 hc with rfl | hc
          · exact hd
          · exact ih e0 (List.mem_cons_self e0 es) c hc
        · exact ih e (List.mem_cons_of_mem e0 he) c hc

theorem splitSlash_joinSlash : ∀ st : List (List Char), st ≠ [] →
    (∀ e ∈ st, ∀ c ∈ e, c ≠ '/') → splitSlash (joinSlash st) = st
  | [], h, _ => absurd rfl h
  | [e], _, hs => by
    simp only [joinSlash]
    exact splitSlash_noSlash e (hs e (List.mem_singleton_self e))
  | e :: e2 :: es, _, hs => by
    simp only [joinSlash]
    rw [splitSlash_append, splitSlash_noSlash e (hs e (List.mem_cons_self e _))]
    have ih := splitSlash_joinSlash (e2 :: es) (List.cons_ne_nil e2 es)
      (fun x hx => hs x (List.mem_cons_of_mem e hx))
    simp only [joinSlash] at ih
    rw [ih]
    rfl

theorem cleanStep_mem (rooted : Bool) (stack : List (List Char)) (e x : List Char)
    (hx : x ∈ cleanStep rooted stack e) : x ∈ stack ∨ x = e := by
  unfold cleanStep at hx
  split at hx
  · exact Or.inl hx
  · split at hx
    · cases stack with
      | nil =>
        cases rooted <;> simp at hx
        exact Or.inr hx
      | cons top rest =>
        simp only at hx
        split at hx
        · rcases List.mem_cons.1 hx with h | h
          · exact Or.inr h
          · exact Or.inl h
        · exact Or.inl (List.mem_cons_of_mem top hx)
    · rcases List.mem_cons.1 hx with h | h
      · exact Or.inr h
      · exact Or.inl h

theorem foldl_cleanStep_mem (rooted : Bool) : ∀ (elems stack : List (List Char)) (x : List Char),
    x ∈ elems.foldl (cleanStep rooted) stack → x ∈ stack ∨ x ∈ elems
  | [], _, _, hx => Or.inl hx
  | e :: elems, stack, x, hx => by
    simp only [List.foldl_cons] at hx
    rcases foldl_cleanStep_mem rooted elems _ x hx with h | h
    · rcases cleanStep_mem rooted stack e x h with h2 | h2
      · exact Or.inl h2
      · exact Or.inr (h2 ▸ List.mem_cons_self e elems)
    · exact Or.inr (List.mem_cons_of_mem e h)

theorem goodStack_cleanStep (rooted : Bool) (stack : List (List Char)) (e : List Char)
    (h : GoodStack rooted stack) : GoodStack rooted (cleanStep rooted stack e) := by
  unfold cleanStep
  split
  · exact h
  · rename_i hskip
    rw [not_or] at hskip
    split
    · rename_i hdots
      cases stack with
      | nil =>
        cases rooted
        · simp only [Bool.false_eq_true, if_false]
          exact ⟨hskip.1, hskip.2, fun _ => ⟨rfl, Or.inl rfl⟩, trivial⟩
        · simp only [if_true]
          trivial
      | cons top rest =>
        simp only
        split
        · rename_i htop
          refine ⟨hskip.1, hskip.2, fun _ => ⟨(h.2.2.1 htop).1, Or.inr ⟨rest, ?_⟩⟩, h⟩
          rw [htop]
        · exact h.2.2.2
    · rename_i hdots
      exact ⟨hskip.1, hskip.2, fun hd => absurd hd hdots, h⟩

theorem goodStack_foldl (rooted : Bool) : ∀ (elems stack : List (List Char)),
    GoodStack rooted stack → GoodStack rooted (elems.foldl (cleanStep rooted) stack)
  | [], _, h => h
  | e :: elems, stack, h => by
    simp only [List.foldl_cons]
    exact goodStack_foldl rooted elems _ (goodStack_cleanStep rooted stack e h)

/-- Cleaning leaves a cleaned list of elements as it is. -/
theorem foldl_cleanStep_good (rooted : Bool) : ∀ stack : List (List Char),
    GoodStack rooted stack → stack.reverse.foldl (cleanStep rooted) [] = stack
  | [], _ => rfl
  | e :: stack, h => by
    have ih := foldl_cleanStep_good rooted stack h.2.2.2
    rw [List.reverse_cons, List.foldl_append, ih]
    simp only [List.foldl_cons, List.foldl_nil]
    unfold cleanStep
    have h1 : ¬(e = [] ∨ e = ['.']) := not_or.2 ⟨h.1, h.2.1⟩
    simp only [h1, if_false]
    by_cases hd : e = ['.', '.']
    · simp only [hd, if_true]
      rcases (h.2.2.1 hd).2 with hs | ⟨r, hs⟩
      · subst hs
        simp [(h.2.2.1 hd).1]
      · subst hs
        simp
    · simp only [hd, if_false]

theorem stripElems_append : ∀ as bs : List (List Char), stripElems as (as ++ bs) = some bs
  | [], _ => rfl
  | a :: as, bs => by
    simp only [List.cons_append, stripElems, if_true]
    exact stripElems_append as bs

theorem isRooted_cons (c : Char) (cs : List Char) (hc : c ≠ '/') :
    isRooted (c :: cs) = false := by
  unfold isRooted
  split
  · rename_i heq
    exact absurd (List.cons.inj heq).1 hc
  · rfl

theorem isRooted_joinSlash (e : List Char) (es : List (List Char)) (hne : e ≠ [])
    (hs : ∀ c ∈ e, c ≠ '/') : isRooted (joinSlash (e :: es)) = false := by
  cases e with
  | nil => exact absurd rfl hne
  | cons c cs =>
    have hc : c ≠ '/' := hs c (List.mem_cons_self c cs)
    cases es with
    | nil => exact isRooted_cons c cs hc
    | cons e2 es => exact isRooted_cons c _ hc

/-- The elements of a rendered cleaned path are the elements it was rendered from. -/
theorem cleanElems_renderPath (rooted : Bool) (stack : List (List Char))
    (hgood : GoodStack rooted stack) (hne : stack ≠ [])
    (hs : ∀ e ∈ stack, ∀ c ∈ e, c ≠ '/') :
    isRooted (renderPath rooted stack.reverse) = rooted ∧
      cleanElems rooted (splitSlash (renderPath rooted stack.reverse)) = stack.reverse := by
  have hne2 : stack.reverse ≠ [] := by simpa using hne
  have hs2 : ∀ e ∈ stack.reverse, ∀ c ∈ e, c ≠ '/' := fun e he => hs e (List.mem_reverse.1 he)
  have hnonempty : ∀ (st : List (List Char)), GoodStack rooted st → ∀ e ∈ st, e ≠ [] := by
    intro st
    induction st with
    | nil => intro _ e he; simp at he
    | cons a st ih =>
      intro hg e he
      rcases List.mem_cons.1 he with rfl | he
      · exact hg.1
      · exact ih hg.2.2.2 e he
  have hfold : (stack.reverse).foldl (cleanStep rooted) [] = stack :=
    foldl_cleanStep_good rooted stack hgood
  cases rooted with
  | true =>
    simp only [renderPath, if_true]
    refine ⟨rfl, ?_⟩
    unfold cleanElems
    simp only [splitSlash, if_true]
    rw [splitSlash_joinSlash _ hne2 hs2]
    simp only [List.foldl_cons]
    have h0 : cleanStep true [] [] = [] := by simp [cleanStep]
    rw [h0, hfold]
  | false =>
    simp only [renderPath, Bool.false_eq_true, if_false, hne2]
    constructor
    · cases hr : stack.reverse with
      | nil => exact absurd hr hne2
      | cons e es =>
        have he : e ∈ stack := List.mem_reverse.1 (hr ▸ List.mem_cons_self e es)
        exact isRooted_joinSlash e es (hnonempty stack hgood e he) (hs e he)
    · unfold cleanElems
      rw [splitSlash_joinSlash _ hne2 hs2, hfold]

theorem isRooted_append (a b : List Char) (h : a ≠ []) : isRooted (a ++ b) = isRooted a := by
  cases a with
  | nil => exact absurd rfl h
  | cons c cs =>
    rw [List.cons_append]
    by_cases hc : c = '/'
    · subst hc
      rfl
    · rw [isRooted_cons c _ hc, isRooted_cons c _ hc]

/-- Joining a plain element to a directory gives a path whose entry in that directory
is the element. -/
theorem rootChild_pathJoin (root name : String) (h : isPathElement name = true) :
    rootChild root (pathJoin root name) = some name := by
  obtain ⟨p⟩ := root
  obtain ⟨v⟩ := name
  simp only [isPathElement, String.toList, Bool.and_eq_true, decide_eq_true_eq,
    List.all_eq_true] at h
  obtain ⟨⟨⟨hv1, hv2⟩, hv3⟩, hv4⟩ := h
  have hslash : ∀ c ∈ v, c ≠ '/' := hv4
  have hskip : ¬(v = [] ∨ v = ['.']) := not_or.2 ⟨hv1, hv2⟩
  have hpush : ∀ (r : Bool) (s : List (List Char)), cleanStep r s v = v :: s := by
    intro r s
    simp [cleanStep, hskip, hv3]
  have hvroot : isRooted v = false := by
    cases v with
    | nil => rfl
    | cons c cs => exact isRooted_cons c cs (hslash c (List.mem_cons_self c cs))
  have hvelems : cleanElems false (splitSlash v) = [v] := by
    simp [splitSlash_noSlash v hslash, cleanElems, hpush]
  by_cases hp : p = []
  · subst hp
    have hclean : pathClean v = v := by
      simp [pathClean, hvroot, hvelems, renderPath, joinSlash]
    have hjoin : pathJoin ⟨[]⟩ ⟨v⟩ = ⟨v⟩ := by
      simp [pathJoin, String.toList, hv1, hclean]
    have hroot : cleanElems false (splitSlash []) = [] := by
      simp [cleanElems, splitSlash, cleanStep]
    have hr0 : isRooted ([] : List Char) = false := rfl
    rw [hjoin]
    unfold rootChild
    simp only [String.toList, hr0, hvroot, if_true, hroot, hvelems, stripElems, hv3, if_false]
  · have hjoin : pathJoin ⟨p⟩ ⟨v⟩ = String.mk (pathClean (p ++ '/' :: v)) := by
      simp [pathJoin, String.toList, hp, hv1]
    rw [hjoin]
    have hr : isRooted (p ++ '/' :: v) = isRooted p := isRooted_append p _ hp
    have hgood : GoodStack (isRooted p) ((splitSlash p).foldl (cleanStep (isRooted p)) []) :=
      goodStack_foldl (isRooted p) (splitSlash p) [] trivial
    have hmem : ∀ e ∈ (splitSlash p).foldl (cleanStep (isRooted p)) [], ∀ c ∈ e, c ≠ '/' := by
      intro e he
      rcases foldl_cleanStep_mem (isRooted p) (splitSlash p) [] e he with h2 | h2
      · simp at h2
      · exact splitSlash_mem p e h2
    have hstack : GoodStack (isRooted p)
        (v :: (splitSlash p).foldl (cleanStep (isRooted p)) []) :=
      ⟨hv1, hv2, fun hd => absurd hd hv3, hgood⟩
    have hstackmem : ∀ e ∈ v :: (splitSlash p).foldl (cleanStep (isRooted p)) [],
        ∀ c ∈ e, c ≠ '/' := by
      intro e he
      rcases List.mem_cons.1 he with rfl | he
      · exact hslash
      · exact hmem e he
    have hround := cleanElems_renderPath (isRooted p)
      (v :: (splitSlash p).foldl (cleanStep (isRooted p)) []) hstack (List.cons_ne_nil _ _)
      hstackmem
    have helems : cleanElems (isRooted p) (splitSlash (p ++ '/' :: v))
        = (v :: (splitSlash p).foldl (cleanStep (isRooted p)) []).reverse := by
      unfold cleanElems
      rw [splitSlash_append, splitSlash_noSlash v hslash, List.foldl_append]
      simp only [List.foldl_cons, List.foldl_nil, hpush]
    have htarget : pathClean (p ++ '/' :: v)
        = renderPath (isRooted p)
            (v :: (splitSlash p).foldl (cleanStep (isRooted p)) []).reverse := by
      unfold pathClean
      rw [hr, helems]
    unfold rootChild
    simp only [String.toList, htarget, hround.1, if_true, hround.2]
    have hstrip : stripElems (cleanElems (isRooted p) (splitSlash p))
        ((v :: (splitSlash p).foldl (cleanStep (isRooted p)) []).reverse) = some [v] := by
      unfold cleanElems
      rw [List.reverse_cons]
      exact stripElems_append _ _
    rw [hstrip]
    simp [hv3]

/-! ## The local inventory -/

theorem ListLocal_trace (E : Env) (w : World) :
    (ListLocal E w).2.trace = w.trace ++ [Event.mkdirAll, Event.readDir] := by
  obtain ⟨root, mkdirErr, readDirErr, trace⟩ := w
  cases root <;> cases mkdirErr <;> cases readDirErr <;>
    simp [ListLocal, InstallPath, mkdirAllRoot, readDirRoot, World.log]

theorem ListLocal_root (E : Env) (w : World) :
    (ListLocal E w).2.root.getD [] = w.root.getD [] := by
  obtain ⟨root, mkdirErr, readDirErr, trace⟩ := w
  cases root <;> cases mkdirErr <;> cases readDirErr <;>
    simp [ListLocal, InstallPath, mkdirAllRoot, readDirRoot, World.log]

/-- A successful listing is the sorted list of the directory names of the root as it
is once `InstallPath` has run. -/
theorem ListLocal_ok (E : Env) (w : World) (versions : List String)
    (h : (ListLocal E w).1 = .ok versions) :
    versions = sortFunc E.pdqsort cmpVersion
      ((((ListLocal E w).2.root.getD []).filter (fun entry => entry.isDir)).map
        (fun entry => entry.name)) := by
  obtain ⟨root, mkdirErr, readDirErr, trace⟩ := w
  cases root <;> cases mkdirErr <;> cases readDirErr <;>
    simp [ListLocal, InstallPath, mkdirAllRoot, readDirRoot, World.log] at h ⊢ <;>
    exact h.symm

/-- A listing that is not empty comes from a root that was there before the call. -/
theorem ListLocal_root_eq (E : Env) (w : World) (versions : List String)
    (h : (ListLocal E w).1 = .ok versions) (hne : versions ≠ []) :
    (ListLocal E w).2.root = w.root := by
  have hnil : sortFunc E.pdqsort cmpVersion ([] : List String) = [] :=
    List.Perm.eq_nil (sortFunc_perm cmpVersion E.pdqsort [])
  obtain ⟨root, mkdirErr, readDirErr, trace⟩ := w
  cases root <;> cases mkdirErr <;> cases readDirErr <;>
    simp [ListLocal, InstallPath, mkdirAllRoot, readDirRoot, World.log, hnil] at h ⊢
  exact hne h

theorem ListLocal_sorted (E : Env) (w : World) (versions : List String)
    (h : (ListLocal E w).1 = .ok versions) :
    versions.Pairwise (fun a b => cmpVersion a b ≠ .gt) := by
  rw [ListLocal_ok E w versions h]
  exact sortFunc_sorted cmpVersion E.pdqsort _

/-! ## detect -/

/-- The local search of `detect` succeeds with the first match of the walk. -/
theorem detect_local_found (E : Env) (requested : String) (w : World) (e : String)
    (predicate : String → Bool) (reverseOrder : Bool) (versions : List String)
    (version : String)
    (hexact : E.NewVersion requested = .error e)
    (hparse : E.parsePredicate requested E.conf.Verbose = .ok (predicate, reverseOrder))
    (hlocal : (ListLocal E w).1 = .ok versions)
    (hfind : (Iterate versions reverseOrder).find? predicate = some version) :
    detect E requested true w = ((version, none), (ListLocal E w).2) := by
  unfold detect
  rw [hexact]
  simp only [hparse, if_true]
  rcases hl : ListLocal E w with ⟨r, w1⟩
  rw [hl] at hlocal
  simp only at hlocal
  subst hlocal
  simp only [hfind]

/-- The walk in the requested direction, in terms of the matching versions. -/
theorem find?_Iterate (versions : List String) (reverseOrder : Bool)
    (predicate : String → Bool) :
    (Iterate versions reverseOrder).find? predicate =
      if reverseOrder then (versions.filter predicate).getLast?
      else (versions.filter predicate).head? := by
  cases reverseOrder <;> simp [Iterate]

/-- A match exists as soon as one version satisfies the predicate. -/
theorem find?_Iterate_isSome (versions : List String) (reverseOrder : Bool)
    (predicate : String → Bool) (h : ∃ v ∈ versions, predicate v = true) :
    ∃ version, (Iterate versions reverseOrder).find? predicate = some version := by
  rcases h with ⟨v, hv, hp⟩
  cases hf : (Iterate versions reverseOrder).find? predicate with
  | some version => exact ⟨version, rfl⟩
  | none =>
    rw [List.find?_eq_none] at hf
    have hmem : v ∈ Iterate versions reverseOrder := by
      cases reverseOrder <;> simp [Iterate, hv]
    exact absurd hp (hf v hmem)

/-- The match of the walk is extremal for the comparator on an ascending list. -/
theorem find?_Iterate_extremal (versions : List String) (reverseOrder : Bool)
    (predicate : String → Bool) (version : String)
    (hs : versions.Pairwise (fun a b => cmpVersion a b ≠ .gt))
    (hfind : (Iterate versions reverseOrder).find? predicate = some version) :
    ∀ u ∈ versions, predicate u = true →
      if reverseOrder then cmpVersion u version ≠ .gt else cmpVersion version u ≠ .gt := by
  intro u hu hpu
  cases reverseOrder with
  | true =>
    simp only [Iterate, if_true] at hfind ⊢
    exact find?_reverse_greatest cmpVersion predicate versions hs version hfind u hu hpu
  | false =>
    simp only [Iterate, Bool.false_eq_true, if_false] at hfind ⊢
    exact find?_least cmpVersion predicate versions hs version hfind u hu hpu

/-- C3. For every request that parses as an exact version and for both values of
`localCheck`, `detect` in no-install mode returns the normalized request with no
error and leaves the world exactly as it was: the trace is unchanged, so there is no
directory creation, no directory listing and no call to the release source. -/
theorem detect_exact_noInstall (E : Env) (requested cleaned : String) (localCheck : Bool)
    (w : World) (hparse : E.NewVersion requested = .ok cleaned)
    (hno : E.conf.NoInstall = true) :
    detect E requested localCheck w = ((cleaned, none), w) := by
  unfold detect
  rw [hparse]
  simp only [hno, if_true]

/-- Witness of C3: the request `v1.7.0` in no-install mode, on a root that does not
exist. -/
theorem detect_exact_noInstall_witness :
    detect (demoEnv true "2.0.0" ["2.0.0"]) "v1.7.0" false ⟨none, none, none, []⟩
      = (("1.7.0", none), ⟨none, none, none, []⟩) :=
  detect_exact_noInstall (demoEnv true "2.0.0" ["2.0.0"]) "v1.7.0" "1.7.0" false
    ⟨none, none, none, []⟩ (by decide) rfl

/-- C8. For every request that is not an exact version and parses to a predicate and a
direction, and every local inventory with a version that satisfies the predicate,
`detect` with the local check returns, with no error, the first satisfying version of
the walk (the first of the ascending list, or the last when the direction is
reversed), which is a least, respectively greatest, satisfying version for the
comparator. The install root is unchanged and the only calls are the creation attempt
and the listing of the root: no call to the release source, no install, whatever the
no-install setting. The local inventory is the list `ListLocal` returns: the names of
the directories of the install root sorted ascending with the version comparator (a
permutation in which no version is greater than a later one; the insertion sort when
there are at most twelve). -/
theorem detect_local_first_match (E : Env) (requested : String) (w : World) (e : String)
    (predicate : String → Bool) (reverseOrder : Bool) (versions : List String)
    (hexact : E.NewVersion requested = .error e)
    (hparse : E.parsePredicate requested E.conf.Verbose = .ok (predicate, reverseOrder))
    (hlocal : (ListLocal E w).1 = .ok versions)
    (hmatch : ∃ v ∈ versions, predicate v = true) :
    ∃ version,
      (if reverseOrder then (versions.filter predicate).getLast?
        else (versions.filter predicate).head?) = some version ∧
      (∀ u ∈ versions, predicate u = true →
        if reverseOrder then cmpVersion u version ≠ .gt else cmpVersion version u ≠ .gt) ∧
      (detect E requested true w).1 = (version, none) ∧
      (detect E requested true w).2.root = w.root ∧
      (detect E requested true w).2.trace = w.trace ++ [Event.mkdirAll, Event.readDir] ∧
      versions.Perm (dirNames w) ∧
      versions.Pairwise (fun a b => cmpVersion a b ≠ .gt) ∧
      ((dirNames w).length ≤ 12 → versions = insertionSort cmpVersion (dirNames w)) := by
  obtain ⟨version, hfind⟩ := find?_Iterate_isSome versions reverseOrder predicate hmatch
  have hd := detect_local_found E requested w e predicate reverseOrder versions version
    hexact hparse hlocal hfind
  have hne : versions ≠ [] := by
    rcases hmatch with ⟨v, hv, _⟩
    exact List.ne_nil_of_mem hv
  have hsort : versions = sortFunc E.pdqsort cmpVersion (dirNames w) := by
    have h1 := ListLocal_ok E w versions hlocal
    rw [ListLocal_root E w] at h1
    exact h1
  refine ⟨version, ?_, ?_, ?_, ?_, ?_, ?_, ?_, ?_⟩
  · rw [← find?_Iterate]
    exact hfind
  · exact find?_Iterate_extremal versions reverseOrder predicate version
      (ListLocal_sorted E w versions hlocal) hfind
  · rw [hd]
  · rw [hd]
    exact ListLocal_root_eq E w versions hlocal hne
  · rw [hd]
    exact ListLocal_trace E w
  · rw [hsort]
    exact sortFunc_perm cmpVersion E.pdqsort _
  · exact ListLocal_sorted E w versions hlocal
  · intro hlen
    rw [hsort]
    exact sortFunc_short cmpVersion E.pdqsort _ hlen

/-- Witness of C8: the request `>=1.6.0` over the local versions 1.7.0 and 1.6.6. -/
theorem detect_local_first_match_witness :
    ∃ version,
      (if true then
          ((["1.6.6", "1.7.0"] : List String).filter
            (fun v => (parseVersion v).isSome && cmpVersion v "1.6.0" != .lt)).getLast?
        else
          ((["1.6.6", "1.7.0"] : List String).filter
            (fun v => (parseVersion v).isSome && cmpVersion v "1.6.0" != .lt)).head?)
        = some version ∧
      (∀ u ∈ (["1.6.6", "1.7.0"] : List String),
        (fun v => (parseVersion v).isSome && cmpVersion v "1.6.0" != .lt) u = true →
        if true then cmpVersion u version ≠ .gt else cmpVersion version u ≠ .gt) ∧
      (detect (demoEnv false "2.0.0" ["2.0.0"]) ">=1.6.0" true
        (worldWith ["1.7.0", "1.6.6"])).1 = (version, none) ∧
      (detect (demoEnv false "2.0.0" ["2.0.0"]) ">=1.6.0" true
        (worldWith ["1.7.0", "1.6.6"])).2.root = (worldWith ["1.7.0", "1.6.6"]).root ∧
      (detect (demoEnv false "2.0.0" ["2.0.0"]) ">=1.6.0" true
        (worldWith ["1.7.0", "1.6.6"])).2.trace
        = (worldWith ["1.7.0", "1.6.6"]).trace ++ [Event.mkdirAll, Event.readDir] ∧
      (["1.6.6", "1.7.0"] : List String).Perm (dirNames (worldWith ["1.7.0", "1.6.6"])) ∧
      (["1.6.6", "1.7.0"] : List String).Pairwise (fun a b => cmpVersion a b ≠ .gt) ∧
      ((dirNames (worldWith ["1.7.0", "1.6.6"])).length ≤ 12 →
        ["1.6.6", "1.7.0"] = insertionSort cmpVersion (dirNames (worldWith ["1.7.0", "1.6.6"]))) :=
  detect_local_first_match (demoEnv false "2.0.0" ["2.0.0"]) ">=1.6.0"
    (worldWith ["1.7.0", "1.6.6"]) "Malformed version: >=1.6.0"
    (fun v => (parseVersion v).isSome && cmpVersion v "1.6.0" != .lt) true
    ["1.6.6", "1.7.0"] (by decide) rfl (by decide) ⟨"1.7.0", by decide, by decide⟩

/-- The local search of `detect` in no-install mode fails when nothing matches. -/
theorem detect_local_none_noInstall (E : Env) (requested : String) (w : World) (e : String)
    (predicate : String → Bool) (reverseOrder : Bool) (versions : List String)
    (hexact : E.NewVersion requested = .error e)
    (hparse : E.parsePredicate requested E.conf.Verbose = .ok (predicate, reverseOrder))
    (hno : E.conf.NoInstall = true)
    (hlocal : (ListLocal E w).1 = .ok versions)
    (hnone : ∀ v ∈ versions, predicate v = false) :
    detect E requested true w = (("", some Err.noCompatible), (ListLocal E w).2) := by
  have hfind : (Iterate versions reverseOrder).find? predicate = none := by
    rw [List.find?_eq_none]
    intro x hx
    have hmem : x ∈ versions := by
      cases reverseOrder <;> simpa [Iterate] using hx
    simp [hnone x hmem]
  unfold detect
  rw [hexact]
  simp only [hparse, if_true]
  rcases hl : ListLocal E w with ⟨r, w1⟩
  rw [hl] at hlocal
  simp only at hlocal
  subst hlocal
  simp only [hfind, hno, if_true]

/-- Counterexample to C1: scenario C of the spec (no-install mode, empty local
inventory, remote list `["2.0.0"]`). With the local check, `detect` of the latest
keyword does not return `2.0.0`: it fails with `errNoCompatible` at line 235, before
the latest release is asked for. -/
theorem detect_latest_noInstall_counterexample :
    (detect (demoEnv true "2.0.0" ["2.0.0"]) "latest" true (worldWith [])).1
        = ("", some Err.noCompatible) ∧
      (detect (demoEnv true "2.0.0" ["2.0.0"]) "latest" true (worldWith [])).1
        ≠ ("2.0.0", none) := by
  decide

/-- C1, amended. In no-install mode, when the latest keyword is no exact version and
parses to a predicate that no local version satisfies (in particular when the local
inventory is empty): with the local check `detect` fails with `errNoCompatible`, its
only calls being the creation attempt and the listing of the install root, and no
version directory appears; without the local check `detect` returns the latest release
reported by the release source with no error, its only call being `LatestRelease`, so
nothing is installed and no directory is created. -/
theorem detect_latest_noInstall (E : Env) (w : World) (e : String)
    (predicate : String → Bool) (reverseOrder : Bool) (versions : List String)
    (hexact : E.NewVersion LatestKey = .error e)
    (hparse : E.parsePredicate LatestKey E.conf.Verbose = .ok (predicate, reverseOrder))
    (hno : E.conf.NoInstall = true)
    (hlocal : (ListLocal E w).1 = .ok versions)
    (hnone : ∀ v ∈ versions, predicate v = false) :
    (detect E LatestKey true w).1 = ("", some Err.noCompatible) ∧
      (detect E LatestKey true w).2.trace = w.trace ++ [Event.mkdirAll, Event.readDir] ∧
      (detect E LatestKey true w).2.root.getD [] = w.root.getD [] ∧
      (∀ v, E.retriever.LatestRelease = .ok v →
        detect E LatestKey false w = ((v, none), w.log Event.latestRelease)) := by
  have hd := detect_local_none_noInstall E LatestKey w e predicate reverseOrder versions
    hexact hparse hno hlocal hnone
  refine ⟨by rw [hd], ?_, ?_, ?_⟩
  · rw [hd]
    exact ListLocal_trace E w
  · rw [hd]
    exact ListLocal_root E w
  · intro v hv
    unfold detect
    rw [hexact]
    simp only [hparse, Bool.false_eq_true, if_false, detectRemote, if_true, hno, latestRelease,
      hv]

/-- Witness of C1, amended: scenario C of the spec. -/
theorem detect_latest_noInstall_witness :
    (detect (demoEnv true "2.0.0" ["2.0.0"]) LatestKey true (worldWith [])).1
        = ("", some Err.noCompatible) ∧
      (detect (demoEnv true "2.0.0" ["2.0.0"]) LatestKey true (worldWith [])).2.trace
        = (worldWith []).trace ++ [Event.mkdirAll, Event.readDir] ∧
      (detect (demoEnv true "2.0.0" ["2.0.0"]) LatestKey true (worldWith [])).2.root.getD []
        = (worldWith []).root.getD [] ∧
      (∀ v, (demoEnv true "2.0.0" ["2.0.0"]).retriever.LatestRelease = .ok v →
        detect (demoEnv true "2.0.0" ["2.0.0"]) LatestKey false (worldWith [])
          = ((v, none), (worldWith []).log Event.latestRelease)) :=
  detect_latest_noInstall (demoEnv true "2.0.0" ["2.0.0"]) (worldWith [])
    "Malformed version: latest" (fun _ => true) true [] (by decide) rfl rfl (by decide)
    (by simp)

/-- Counterexample to C2: the local inventory holds 1.6.6, which satisfies the predicate
of the latest keyword, and the release source reports 2.0.0 as its latest release;
`detect` with the local check returns the local 1.6.6 (line 230) and never asks the
release source. -/
theorem detect_latest_local_counterexample :
    (demoEnv false "2.0.0" ["1.6.6", "2.0.0"]).retriever.LatestRelease = .ok "2.0.0" ∧
      detect (demoEnv false "2.0.0" ["1.6.6", "2.0.0"]) "latest" true (worldWith ["1.6.6"])
        = (("1.6.6", none),
            ⟨some [⟨"1.6.6", true⟩], none, none, [Event.mkdirAll, Event.readDir]⟩) := by
  decide

/-- C2, amended. For every local inventory that contains a version satisfying the
predicate obtained for the latest keyword, `detect` of the latest keyword with the
local check returns the version found by the local predicate search (the first match
of the walk in the direction of the predicate), with no error and without any call to
the release source: the latest release is only asked for when the local search is
skipped or finds nothing. -/
theorem detect_latest_local (E : Env) (w : World) (e : String)
    (predicate : String → Bool) (reverseOrder : Bool) (versions : List String)
    (hexact : E.NewVersion LatestKey = .error e)
    (hparse : E.parsePredicate LatestKey E.conf.Verbose = .ok (predicate, reverseOrder))
    (hlocal : (ListLocal E w).1 = .ok versions)
    (hmatch : ∃ v ∈ versions, predicate v = true) :
    ∃ version,
      (Iterate versions reverseOrder).find? predicate = some version ∧
      version ∈ versions ∧ predicate version = true ∧
      (detect E LatestKey true w).1 = (version, none) ∧
      (∀ ev ∈ (detect E LatestKey true w).2.trace, ev ∈ w.trace ∨ ev.isRetriever = false) := by
  obtain ⟨version, hfind⟩ := find?_Iterate_isSome versions reverseOrder predicate hmatch
  have hd := detect_local_found E LatestKey w e predicate reverseOrder versions version
    hexact hparse hlocal hfind
  have hmem : version ∈ Iterate versions reverseOrder := List.mem_of_find?_eq_some hfind
  refine ⟨version, hfind, ?_, List.find?_some hfind, by rw [hd], ?_⟩
  · cases reverseOrder <;> simpa [Iterate] using hmem
  · rw [hd, ListLocal_trace]
    intro ev hev
    rcases List.mem_append.1 hev with h | h
    · exact Or.inl h
    · right
      simp only [List.mem_cons, List.mem_singleton, List.not_mem_nil, or_false] at h
      rcases h with rfl | rfl <;> rfl

/-- Witness of C2, amended: the local inventory holds 1.6.6 and the release source
reports 2.0.0. -/
theorem detect_latest_local_witness :
    ∃ version,
      (Iterate ["1.6.6"] true).find? (fun _ => true) = some version ∧
      version ∈ ["1.6.6"] ∧ (fun _ : String => true) version = true ∧
      (detect (demoEnv false "2.0.0" ["1.6.6", "2.0.0"]) LatestKey true
        (worldWith ["1.6.6"])).1 = (version, none) ∧
      (∀ ev ∈ (detect (demoEnv false "2.0.0" ["1.6.6", "2.0.0"]) LatestKey true
          (worldWith ["1.6.6"])).2.trace,
        ev ∈ (worldWith ["1.6.6"]).trace ∨ ev.isRetriever = false) :=
  detect_latest_local (demoEnv false "2.0.0" ["1.6.6", "2.0.0"]) (worldWith ["1.6.6"])
    "Malformed version: latest" (fun _ => true) true ["1.6.6"] (by decide) rfl (by decide)
    ⟨"1.6.6", by decide, rfl⟩

/-! ## installSpecificVersion -/

theorem hasDir_addDir (entries : List DirEntry) (version : String) :
    hasDir (addDir entries version) version = true := by
  unfold addDir
  split
  · assumption
  · simp [hasDir]

theorem isPathElement_ne_empty (version : String) (h : isPathElement version = true) :
    version ≠ "" := by
  intro he
  subst he
  simp [isPathElement] at h

/-- A version whose directory is listed is not installed again. -/
theorem installSpecificVersion_present (E : Env) (version : String) (w : World)
    (entries : List DirEntry) (hne : version ≠ "") (hroot : w.root = some entries)
    (hread : w.readDirErr = none) (hdir : hasDir entries version = true) :
    installSpecificVersion E version w
      = (none, (w.log Event.mkdirAll).log Event.readDir) := by
  obtain ⟨root, mkdirErr, readDirErr, trace⟩ := w
  simp only at hroot hread
  subst hroot hread
  simp [installSpecificVersion, hne, InstallPath, mkdirAllRoot, readDirRoot, World.log, hdir]

theorem readDirRoot_ok (w w2 : World) (entries : List DirEntry)
    (h : readDirRoot w = (.ok entries, w2)) :
    w2 = w.log Event.readDir ∧ w.root = some entries ∧ w.readDirErr = none := by
  obtain ⟨root, mkdirErr, readDirErr, trace⟩ := w
  cases root <;> cases readDirErr <;>
    simp only [readDirRoot, World.log, Prod.mk.injEq, Except.ok.injEq, reduceCtorEq,
      false_and] at h
  obtain ⟨rfl, rfl⟩ := h
  exact ⟨rfl, rfl, rfl⟩

/-- The target of a plain version is the directory of that name in the install root. -/
theorem withTarget_plain (E : Env) (version : String) (w0 w : World)
    (hplain : isPathElement version = true) :
    withTarget E (pathJoin (InstallPath E w0).1 version) w
      = { w with root := some (addDir (w.root.getD []) version) } := by
  unfold withTarget
  simp only [InstallPath, rootChild_pathJoin _ _ hplain]

/-- After a successful call for a plain version the directory of the version is listed
and the root can be read. -/
theorem installSpecificVersion_success (E : Env) (version : String) (w : World)
    (hplain : isPathElement version = true)
    (hok : (installSpecificVersion E version w).1 = none) :
    ∃ entries, (installSpecificVersion E version w).2.root = some entries ∧
      hasDir entries version = true ∧
      (installSpecificVersion E version w).2.readDirErr = none := by
  have hne := isPathElement_ne_empty version hplain
  unfold installSpecificVersion at hok ⊢
  simp only [hne, if_false] at hok ⊢
  rcases hrd : readDirRoot (InstallPath E w).2 with ⟨r, w2⟩
  rw [hrd] at hok
  cases r with
  | error err => exact absurd hok (by simp)
  | ok entries =>
    obtain ⟨rfl, hroot, hread⟩ := readDirRoot_ok _ _ _ hrd
    simp only at hok ⊢
    cases hdir : hasDir entries version with
    | true => exact ⟨entries, hroot, hdir, hread⟩
    | false =>
      simp only [hdir, Bool.false_eq_true, if_false] at hok ⊢
      cases hurl : E.retriever.DownloadAssetUrl version with
      | error err => simp [hurl] at hok
      | ok url =>
        simp only [hurl] at hok ⊢
        cases hget : E.httpGet url with
        | error err => simp [hget] at hok
        | ok body =>
          simp only [hget, unzipToDir] at hok ⊢
          cases hz : E.unzip body (pathJoin (InstallPath E w).1 version) with
          | done =>
            simp only [withTarget_plain E version w _ hplain]
            exact ⟨_, rfl, hasDir_addDir _ _, hread⟩
          | failed msg left =>
            cases left <;> simp [hz] at hok

/-- Counterexample to C4: the version `1.7.0/` is not empty and its first installation
succeeds, but the directory `path.Join` makes of it is `1.7.0`, which line 270 does not
take for `1.7.0/`: the second call asks the release source for the asset, downloads
and extracts again. -/
theorem installSpecificVersion_idempotent_counterexample :
    installSpecificVersion (demoEnv false "1.7.0" ["1.7.0"]) "1.7.0/" (worldWith [])
        = (none, ⟨some [⟨"1.7.0", true⟩], none, none,
            [Event.mkdirAll, Event.readDir, Event.downloadAssetUrl "1.7.0/",
              Event.httpGet "asset/1.7.0/.zip",
              Event.unzipToDir "/opt/gotofuenv/OpenTofu/1.7.0"]⟩) ∧
      (installSpecificVersion (demoEnv false "1.7.0" ["1.7.0"]) "1.7.0/"
          (installSpecificVersion (demoEnv false "1.7.0" ["1.7.0"]) "1.7.0/"
            (worldWith [])).2).2.trace
        = [Event.mkdirAll, Event.readDir, Event.downloadAssetUrl "1.7.0/",
            Event.httpGet "asset/1.7.0/.zip",
            Event.unzipToDir "/opt/gotofuenv/OpenTofu/1.7.0",
            Event.mkdirAll, Event.readDir, Event.downloadAssetUrl "1.7.0/",
            Event.httpGet "asset/1.7.0/.zip",
            Event.unzipToDir "/opt/gotofuenv/OpenTofu/1.7.0"] := by
  decide

/-- C4, amended. `installSpecificVersion` is idempotent on plain names: for every version
that is one path element (not empty, not `.`, not `..`, without a slash) and every
world in which a first call succeeded, a second call succeeds too, leaves the install
root exactly as the first call left it, and only tries to create and lists the root:
no `DownloadAssetUrl`, no download, no extraction. -/
theorem installSpecificVersion_idempotent (E : Env) (version : String) (w : World)
    (hplain : isPathElement version = true)
    (hfirst : (installSpecificVersion E version w).1 = none) :
    (installSpecificVersion E version (installSpecificVersion E version w).2).1 = none ∧
      (installSpecificVersion E version (installSpecificVersion E version w).2).2.root
        = (installSpecificVersion E version w).2.root ∧
      (installSpecificVersion E version (installSpecificVersion E version w).2).2.trace
        = (installSpecificVersion E version w).2.trace ++ [Event.mkdirAll, Event.readDir] := by
  obtain ⟨entries, hroot, hdir, hread⟩ :=
    installSpecificVersion_success E version w hplain hfirst
  rw [installSpecificVersion_present E version _ entries
    (isPathElement_ne_empty version hplain) hroot hread hdir]
  simp [World.log]

/-- Witness of C4, amended: installing 1.7.0 into an empty install root, twice. -/
theorem installSpecificVersion_idempotent_witness :
    (installSpecificVersion (demoEnv false "1.7.0" ["1.7.0"]) "1.7.0"
        (installSpecificVersion (demoEnv false "1.7.0" ["1.7.0"]) "1.7.0"
          (worldWith [])).2).1 = none ∧
      (installSpecificVersion (demoEnv false "1.7.0" ["1.7.0"]) "1.7.0"
        (installSpecificVersion (demoEnv false "1.7.0" ["1.7.0"]) "1.7.0"
          (worldWith [])).2).2.root
        = (installSpecificVersion (demoEnv false "1.7.0" ["1.7.0"]) "1.7.0"
            (worldWith [])).2.root ∧
      (installSpecificVersion (demoEnv false "1.7.0" ["1.7.0"]) "1.7.0"
        (installSpecificVersion (demoEnv false "1.7.0" ["1.7.0"]) "1.7.0"
          (worldWith [])).2).2.trace
        = (installSpecificVersion (demoEnv false "1.7.0" ["1.7.0"]) "1.7.0"
            (worldWith [])).2.trace ++ [Event.mkdirAll, Event.readDir] :=
  installSpecificVersion_idempotent (demoEnv false "1.7.0" ["1.7.0"]) "1.7.0" (worldWith [])
    (by decide) (by decide)

/-- Counterexample to C9: the public `Install` given the empty string does not fail
with `errEmptyVersion`. The empty string is no exact version and not the latest
keyword, so it goes to `parsePredicate`, whose error is returned (line 76). -/
theorem Install_empty_counterexample :
    Install (demoEnv false "2.0.0" ["2.0.0"]) "" (worldWith [])
        = (some (Err.parse "Malformed constraint: "), worldWith []) ∧
      (Install (demoEnv false "2.0.0" ["2.0.0"]) "" (worldWith [])).1
        ≠ some Err.emptyVersion := by
  decide

/-- C9, amended. `installSpecificVersion` given the empty string returns
`errEmptyVersion` for every install root and every release source, and leaves the world
untouched (no directory listing, no call to the release source, no download). The
public `Install` given the empty string does not reach that check: when the empty
string is no exact version and the predicate parser rejects it, `Install` returns the
error of the parser and leaves the world untouched. -/
theorem install_empty_version (E : Env) (w : World) :
    installSpecificVersion E "" w = (some Err.emptyVersion, w) ∧
      (∀ e msg, E.NewVersion "" = .error e →
        E.parsePredicate "" E.conf.Verbose = .error msg →
        Install E "" w = (some (Err.parse msg), w)) := by
  refine ⟨by simp [installSpecificVersion], ?_⟩
  intro e msg hexact hparse
  have hkey : ("" : String) ≠ LatestKey := by decide
  simp [Install, hexact, hparse, hkey]

/-- Witness of C9, amended: go-version and a parser that reject the empty string. -/
theorem install_empty_version_witness :
    installSpecificVersion (demoEnv false "2.0.0" ["2.0.0"]) "" (worldWith [])
        = (some Err.emptyVersion, worldWith []) ∧
      Install (demoEnv false "2.0.0" ["2.0.0"]) "" (worldWith [])
        = (some (Err.parse "Malformed constraint: "), worldWith []) :=
  ⟨(install_empty_version (demoEnv false "2.0.0" ["2.0.0"]) (worldWith [])).1,
    (install_empty_version (demoEnv false "2.0.0" ["2.0.0"]) (worldWith [])).2
      "Malformed version: " "Malformed constraint: " (by decide) rfl⟩

/-! ## Which names are extracted -/

theorem InstallPath_trace (E : Env) (w : World) :
    (InstallPath E w).2.trace = w.trace ++ [Event.mkdirAll] := by
  obtain ⟨root, mkdirErr, readDirErr, trace⟩ := w
  cases root <;> cases mkdirErr <;> simp [InstallPath, mkdirAllRoot, World.log]

theorem withTarget_trace (E : Env) (targetPath : String) (w : World) :
    (withTarget E targetPath w).trace = w.trace := by
  unfold withTarget
  split <;> rfl

theorem unzipToDir_trace (E : Env) (body targetPath : String) (w : World) :
    (unzipToDir E body targetPath w).2.trace = w.trace ++ [Event.unzipToDir targetPath] := by
  unfold unzipToDir
  cases E.unzip body targetPath with
  | done => simp [withTarget_trace, World.log]
  | failed msg left => cases left <;> simp [withTarget_trace, World.log]

/-- The only extraction `installSpecificVersion` can add is that of its argument, joined
to the install path. -/
theorem installSpecificVersion_unzip (E : Env) (version : String) (w : World)
    (target : String)
    (h : Event.unzipToDir target ∈ (installSpecificVersion E version w).2.trace) :
    Event.unzipToDir target ∈ w.trace ∨
      target = pathJoin (pathJoin E.conf.RootPath E.FolderName) version := by
  unfold installSpecificVersion at h
  split at h
  · exact Or.inl h
  · rcases hrd : readDirRoot (InstallPath E w).2 with ⟨r, w2⟩
    simp only [hrd] at h
    have htr : w2.trace = w.trace ++ [Event.mkdirAll, Event.readDir] := by
      have h2 : w2 = (readDirRoot (InstallPath E w).2).2 := by rw [hrd]
      rw [h2]
      have h3 : ∀ v : World, (readDirRoot v).2.trace = v.trace ++ [Event.readDir] := by
        intro v
        obtain ⟨root, mkdirErr, readDirErr, trace⟩ := v
        cases root <;> cases readDirErr <;> simp [readDirRoot, World.log]
      rw [h3, InstallPath_trace]
      simp
    cases r with
    | error err =>
      simp only [htr] at h
      simp at h
      exact Or.inl h
    | ok entries =>
      simp only at h
      split at h
      · simp only [htr] at h
        simp at h
        exact Or.inl h
      · cases hurl : E.retriever.DownloadAssetUrl version with
        | error err =>
          simp only [hurl, World.log, htr] at h
          simp at h
          exact Or.inl h
        | ok url =>
          simp only [hurl] at h
          cases hget : E.httpGet url with
          | error err =>
            simp only [hget, World.log, htr] at h
            simp at h
            exact Or.inl h
          | ok body =>
            simp only [hget, unzipToDir_trace, World.log, htr] at h
            simp at h
            rcases h with h | h
            · exact Or.inl h
            · exact Or.inr h

theorem installLatest_unzip (E : Env) (w : World) (target : String)
    (h : Event.unzipToDir target ∈ (installLatest E w).2.trace) :
    Event.unzipToDir target ∈ w.trace ∨
      ∃ name, target = pathJoin (pathJoin E.conf.RootPath E.FolderName) name ∧
        E.retriever.LatestRelease = .ok name := by
  unfold installLatest at h
  cases hl : E.retriever.LatestRelease with
  | error err =>
    simp only [hl, World.log] at h
    simp at h
    exact Or.inl h
  | ok latestVersion =>
    simp only [hl] at h
    rcases installSpecificVersion_unzip E latestVersion _ target h with h2 | h2
    · simp [World.log] at h2
      exact Or.inl h2
    · exact Or.inr ⟨latestVersion, h2, rfl⟩

theorem searchInstallRemote_unzip (E : Env) (predicate : String → Bool)
    (noInstall reverseOrder : Bool) (w : World) (target : String)
    (h : Event.unzipToDir target
      ∈ (searchInstallRemote E predicate noInstall reverseOrder w).2.trace) :
    Event.unzipToDir target ∈ w.trace ∨
      ∃ name L, target = pathJoin (pathJoin E.conf.RootPath E.FolderName) name ∧
        E.retriever.ListReleases = .ok L ∧ name ∈ L ∧ predicate name = true := by
  unfold searchInstallRemote ListRemote at h
  cases hl : E.retriever.ListReleases with
  | error err =>
    simp only [hl, World.log] at h
    simp at h
    exact Or.inl h
  | ok L =>
    simp only [hl] at h
    cases hf : (Iterate (sortFunc E.pdqsort cmpVersion L) reverseOrder).find? predicate with
    | none =>
      simp only [hf, World.log] at h
      simp at h
      exact Or.inl h
    | some version =>
      simp only [hf] at h
      have hmem : version ∈ L := by
        have h1 := List.mem_of_find?_eq_some hf
        have h2 : version ∈ sortFunc E.pdqsort cmpVersion L := by
          cases reverseOrder <;> simpa [Iterate] using h1
        exact (mem_sortFunc cmpVersion E.pdqsort L version).1 h2
      cases noInstall with
      | true =>
        simp [World.log] at h
        exact Or.inl h
      | false =>
        simp only [Bool.false_eq_true, if_false] at h
        rcases installSpecificVersion_unzip E version _ target h with h2 | h2
        · simp [World.log] at h2
          exact Or.inl h2
        · exact Or.inr ⟨version, L, h2, rfl, hmem, List.find?_some hf⟩

/-- The names `Install` can extract, path by path. -/
theorem Install_unzip (E : Env) (requested : String) (w : World) (target : String)
    (h : Event.unzipToDir target ∈ (Install E requested w).2.trace) :
    Event.unzipToDir target ∈ w.trace ∨
      ∃ name, target = pathJoin (pathJoin E.conf.RootPath E.FolderName) name ∧
        NameOrigin E requested name := by
  unfold Install at h
  cases hn : E.NewVersion requested with
  | ok cleaned =>
    simp only [hn] at h
    rcases installSpecificVersion_unzip E cleaned w target h with h2 | h2
    · exact Or.inl h2
    · refine Or.inr ⟨cleaned, h2, ?_, ?_, ?_⟩
      · intro c hc
        rw [hn] at hc
        cases hc
        rfl
      · intro e he
        rw [hn] at he
        cases he
      · intro e he
        rw [hn] at he
        cases he
  | error e =>
    simp only [hn] at h
    by_cases hkey : requested = LatestKey
    · simp only [hkey, if_true] at h
      rcases installLatest_unzip E w target h with h2 | ⟨name, h2, h3⟩
      · exact Or.inl h2
      · refine Or.inr ⟨name, h2, ?_, ?_, ?_⟩
        · intro c hc
          rw [hn] at hc
          cases hc
        · intro _ _ _
          exact h3
        · intro _ _ hk
          exact absurd hkey hk
    · simp only [hkey, if_false] at h
      cases hp : E.parsePredicate requested E.conf.Verbose with
      | error err =>
        simp only [hp] at h
        exact Or.inl h
      | ok pr =>
        obtain ⟨predicate, reverseOrder⟩ := pr
        simp only [hp] at h
        rcases searchInstallRemote_unzip E predicate false reverseOrder w target h with
          h2 | ⟨name, L, h2, hL, hmem, hpn⟩
        · exact Or.inl h2
        · refine Or.inr ⟨name, h2, ?_, ?_, ?_⟩
          · intro c hc
            rw [hn] at hc
            cases hc
          · intro _ _ hk
            exact absurd hk hkey
          · intro _ _ _
            exact ⟨predicate, reverseOrder, L, hp, hL, hmem, hpn⟩

theorem detectRemote_unzip (E : Env) (requested : String) (predicate : String → Bool)
    (reverseOrder : Bool) (w : World) (target : String)
    (h : Event.unzipToDir target
      ∈ (detectRemote E requested predicate reverseOrder w).2.trace) :
    Event.unzipToDir target ∈ w.trace ∨
      ∃ name, target = pathJoin (pathJoin E.conf.RootPath E.FolderName) name ∧
        ((requested = LatestKey ∧ E.retriever.LatestRelease = .ok name) ∨
          (requested ≠ LatestKey ∧ ∃ L, E.retriever.ListReleases = .ok L ∧ name ∈ L ∧
            predicate name = true)) := by
  unfold detectRemote at h
  split at h
  · rename_i hkey
    split at h
    · left
      unfold latestRelease at h
      cases hl : E.retriever.LatestRelease <;> simp [hl, World.log] at h <;> exact h
    · rcases installLatest_unzip E w target h with h2 | ⟨name, h2, h3⟩
      · exact Or.inl h2
      · exact Or.inr ⟨name, h2, Or.inl ⟨hkey, h3⟩⟩
  · rename_i hkey
    rcases searchInstallRemote_unzip E predicate _ reverseOrder w target h with
      h2 | ⟨name, L, h2, hL, hmem, hpn⟩
    · exact Or.inl h2
    · exact Or.inr ⟨name, h2, Or.inr ⟨hkey, L, hL, hmem, hpn⟩⟩

/-- The names `detect` can extract, path by path. -/
theorem detect_unzip (E : Env) (requested : String) (localCheck : Bool) (w : World)
    (target : String)
    (h : Event.unzipToDir target ∈ (detect E requested localCheck w).2.trace) :
    Event.unzipToDir target ∈ w.trace ∨
      ∃ name, target = pathJoin (pathJoin E.conf.RootPath E.FolderName) name ∧
        NameOrigin E requested name := by
  unfold detect at h
  cases hn : E.NewVersion requested with
  | ok cleaned =>
    simp only [hn] at h
    split at h
    · exact Or.inl h
    · rcases installSpecificVersion_unzip E cleaned w target h with h2 | h2
      · exact Or.inl h2
      · refine Or.inr ⟨cleaned, h2, ?_, ?_, ?_⟩
        · intro c hc
          rw [hn] at hc
          cases hc
          rfl
        · intro e he
          rw [hn] at he
          cases he
        · intro e he
          rw [hn] at he
          cases he
  | error e =>
    simp only [hn] at h
    cases hp : E.parsePredicate requested E.conf.Verbose with
    | error err =>
      simp only [hp] at h
      exact Or.inl h
    | ok pr =>
      obtain ⟨predicate, reverseOrder⟩ := pr
      simp only [hp] at h
      have hlocalTrace : Event.unzipToDir target ∈ (ListLocal E w).2.trace →
          Event.unzipToDir target ∈ w.trace := by
        intro h2
        rw [ListLocal_trace] at h2
        simpa using h2
      have hremote : ∀ w1 : World,
          Event.unzipToDir target
            ∈ (detectRemote E requested predicate reverseOrder w1).2.trace →
          Event.unzipToDir target ∈ w1.trace ∨
            ∃ name, target = pathJoin (pathJoin E.conf.RootPath E.FolderName) name ∧
              NameOrigin E requested name := by
        intro w1 h1
        rcases detectRemote_unzip E requested predicate reverseOrder w1 target h1 with
          h2 | ⟨name, h2, h3⟩
        · exact Or.inl h2
        · refine Or.inr ⟨name, h2, ?_, ?_, ?_⟩
          · intro c hc
            rw [hn] at hc
            cases hc
          · intro _ _ hk
            rcases h3 with ⟨_, h4⟩ | ⟨hk2, _⟩
            · exact h4
            · exact absurd hk hk2
          · intro _ _ hk
            rcases h3 with ⟨hk2, _⟩ | ⟨_, L, hL, hmem, hpn⟩
            · exact absurd hk2 hk
            · exact ⟨predicate, reverseOrder, L, hp, hL, hmem, hpn⟩
      cases localCheck with
      | false =>
        simp only [Bool.false_eq_true, if_false] at h
        exact hremote w h
      | true =>
        simp only [if_true] at h
        rcases hl : ListLocal E w with ⟨r, w1⟩
        have hw1 : w1 = (ListLocal E w).2 := by rw [hl]
        rw [hl] at h
        cases r with
        | error err =>
          simp only at h
          exact Or.inl (hlocalTrace (hw1 ▸ h))
        | ok versions =>
          simp only at h
          split at h
          · exact Or.inl (hlocalTrace (hw1 ▸ h))
          · split at h
            · exact Or.inl (hlocalTrace (hw1 ▸ h))
            · rcases hremote w1 h with h2 | h2
              · exact Or.inl (hlocalTrace (hw1 ▸ h2))
              · exact Or.inr h2

/-- Counterexample to C5: the release source reports `v2.0.0`, which go-version
normalizes to `2.0.0`. On the latest path (`Install` of the latest keyword) and on the
remote-search path (`detect` of `>=1.0.0` without the local check) the name joined to
the install path and passed to extraction, and the directory that appears, is the
reported `v2.0.0`. -/
theorem created_directory_name_counterexample :
    (demoEnv false "v2.0.0" ["v2.0.0"]).NewVersion "v2.0.0" = .ok "2.0.0" ∧
      (Install (demoEnv false "v2.0.0" ["v2.0.0"]) "latest" (worldWith [])).2
        = ⟨some [⟨"v2.0.0", true⟩], none, none,
            [Event.latestRelease, Event.mkdirAll, Event.readDir,
              Event.downloadAssetUrl "v2.0.0", Event.httpGet "asset/v2.0.0.zip",
              Event.unzipToDir "/opt/gotofuenv/OpenTofu/v2.0.0"]⟩ ∧
      (detect (demoEnv false "v2.0.0" ["v2.0.0"]) ">=1.0.0" false (worldWith [])).2
        = ⟨some [⟨"v2.0.0", true⟩], none, none,
            [Event.listReleases, Event.mkdirAll, Event.readDir,
              Event.downloadAssetUrl "v2.0.0", Event.httpGet "asset/v2.0.0.zip",
              Event.unzipToDir "/opt/gotofuenv/OpenTofu/v2.0.0"]⟩ := by
  decide

/-- C5, amended. Every target that `Install` or `detect` passes to extraction is the
install path joined with a name that depends on the path taken: on the exact-version
path (the request parses) the name is the normalized request; on the latest path (the
request does not parse and is the latest keyword) it is the answer of `LatestRelease`
as reported; on the remote-search path (the request does not parse and is not the
latest keyword) it is an element of the answer of `ListReleases`, as reported, that
satisfies the parsed predicate. Hence the name `v` satisfies `normalize(v) = v` for
every request whose normalized form is a fixed point of `normalize` and every release
source whose answers are normalized strings; a string the release source reports
un-normalized is used as it is. -/
theorem created_directory_name (E : Env) (requested : String) (localCheck : Bool) (w : World)
    (target : String)
    (hnew : Event.unzipToDir target ∈ (Install E requested w).2.trace ∨
      Event.unzipToDir target ∈ (detect E requested localCheck w).2.trace)
    (hold : Event.unzipToDir target ∉ w.trace) :
    ∃ name, target = pathJoin (InstallPath E w).1 name ∧
      (∀ c, E.NewVersion requested = .ok c → name = c) ∧
      (∀ e, E.NewVersion requested = .error e → requested = LatestKey →
        E.retriever.LatestRelease = .ok name) ∧
      (∀ e, E.NewVersion requested = .error e → requested ≠ LatestKey →
        ∃ predicate reverseOrder L,
          E.parsePredicate requested E.conf.Verbose = .ok (predicate, reverseOrder) ∧
          E.retriever.ListReleases = .ok L ∧ name ∈ L ∧ predicate name = true) ∧
      ((∀ c, E.NewVersion requested = .ok c → E.NewVersion c = .ok c) →
        (∀ v, E.retriever.LatestRelease = .ok v → E.NewVersion v = .ok v) →
        (∀ L, E.retriever.ListReleases = .ok L → ∀ v ∈ L, E.NewVersion v = .ok v) →
        E.NewVersion name = .ok name) := by
  have horigin : ∃ name, target = pathJoin (pathJoin E.conf.RootPath E.FolderName) name ∧
      NameOrigin E requested name := by
    rcases hnew with h | h
    · rcases Install_unzip E requested w target h with h2 | h2
      · exact absurd h2 hold
      · exact h2
    · rcases detect_unzip E requested localCheck w target h with h2 | h2
      · exact absurd h2 hold
      · exact h2
  obtain ⟨name, htarget, hexact, hlatestPath, hsearchPath⟩ := horigin
  refine ⟨name, htarget, hexact, hlatestPath, hsearchPath, fun hreq hlatest hlist => ?_⟩
  cases hn : E.NewVersion requested with
  | ok c =>
    have hc := hexact c hn
    rw [hc]
    exact hreq c hn
  | error e =>
    by_cases hkey : requested = LatestKey
    · exact hlatest name (hlatestPath e hn hkey)
    · obtain ⟨_, _, L, _, hL, hmem, _⟩ := hsearchPath e hn hkey
      exact hlist L hL name hmem

/-- Witness of C5, amended: the request `v1.7.0` over a release source with normalized
answers; the target of the extraction is the directory `1.7.0` of the install root. -/
theorem created_directory_name_witness :
    ∃ name, "/opt/gotofuenv/OpenTofu/1.7.0"
        = pathJoin (InstallPath (demoEnv false "2.0.0" ["1.7.0", "2.0.0"]) (worldWith [])).1
            name ∧
      (∀ c, (demoEnv false "2.0.0" ["1.7.0", "2.0.0"]).NewVersion "v1.7.0" = .ok c →
        name = c) ∧
      (demoEnv false "2.0.0" ["1.7.0", "2.0.0"]).NewVersion name = .ok name :=
  (created_directory_name (demoEnv false "2.0.0" ["1.7.0", "2.0.0"]) "v1.7.0" true
    (worldWith []) "/opt/gotofuenv/OpenTofu/1.7.0" (Or.inl (by decide)) (by decide)).elim
    (fun name h =>
      ⟨name, h.1, h.2.1,
        h.2.2.2.2
          (by
            intro c hc
            have h1 : (demoEnv false "2.0.0" ["1.7.0", "2.0.0"]).NewVersion "v1.7.0"
                = .ok "1.7.0" := by decide
            rw [h1] at hc
            cases hc
            decide)
          (by
            intro v hv
            cases hv
            decide)
          (by
            intro L hL
            cases hL
            decide)⟩)

/-! ## Resolve -/

theorem head?_trimSpaceChars (cs : List Char) :
    (trimSpaceChars cs).head?.any isSpace = false := by
  unfold trimSpaceChars
  rw [List.head?_reverse]
  have hsplit := List.takeWhile_append_dropWhile isSpace (cs.dropWhile isSpace).reverse
  cases hy : (cs.dropWhile isSpace).reverse.dropWhile isSpace with
  | nil => rfl
  | cons y ys =>
    have hlast : ((cs.dropWhile isSpace).reverse).getLast? = (y :: ys).getLast? := by
      rw [← hsplit, hy]
      exact List.getLast?_append_of_ne_nil _ (List.cons_ne_nil y ys)
    rw [← hlast, List.getLast?_reverse]
    have h := List.head?_dropWhile_not isSpace cs
    cases hh : (cs.dropWhile isSpace).head? with
    | none => rfl
    | some c =>
      rw [hh] at h
      simpa using h

theorem getLast?_trimSpaceChars (cs : List Char) :
    (trimSpaceChars cs).getLast?.any isSpace = false := by
  unfold trimSpaceChars
  rw [List.getLast?_reverse]
  have h := List.head?_dropWhile_not isSpace (cs.dropWhile isSpace).reverse
  cases hh : ((cs.dropWhile isSpace).reverse.dropWhile isSpace).head? with
  | none => rfl
  | some c =>
    rw [hh] at h
    simpa using h

/-- What `TrimSpace` returns neither starts nor ends with white space. -/
theorem isTrimmed_TrimSpace (data : String) : isTrimmed (TrimSpace data) = true := by
  simp [isTrimmed, TrimSpace, head?_trimSpaceChars, getLast?_trimSpaceChars]

/-- Counterexample to C6. First, the environment variable holds a version with
spaces around it: `Resolve` returns it with the spaces. Second, the environment
variable is unset, the pointer file of the working directory holds only white space
and the pointer file of the user scope holds 1.6.6: `Resolve` returns the empty
string, where the reference lookup gives 1.6.6. Neither result is the default version
or a non-empty string free of surrounding white space. -/
theorem Resolve_counterexample :
    Resolve (resolveEnv " 1.7.0 " []) "1.5.0" = " 1.7.0 " ∧
      resolveReference (resolveEnv " 1.7.0 " []) "1.5.0" = "1.7.0" ∧
      isTrimmed (Resolve (resolveEnv " 1.7.0 " []) "1.5.0") = false ∧
      Resolve (resolveEnv ""
          [(".opentofu-version", " \n"), ("/home/user/.opentofu-version", "1.6.6\n")])
        "1.5.0" = "" ∧
      resolveReference (resolveEnv ""
          [(".opentofu-version", " \n"), ("/home/user/.opentofu-version", "1.6.6\n")])
        "1.5.0" = "1.6.6" := by
  decide

/-- C6, amended. `Resolve` equals this lookup: the environment variable, returned as
it is (not trimmed), when it is not empty; otherwise the content, trimmed of
surrounding white space, of the first pointer file that can be read, in the order
working directory, user scope, root scope; otherwise the default version. For every
environment and file state the result is the default version, or the non-empty
environment variable, or a string with no leading or trailing white space. -/
theorem Resolve_eq_lookup (E : Env) (defaultVersion : String) :
    Resolve E defaultVersion = resolveLookup E defaultVersion ∧
      (Resolve E defaultVersion = defaultVersion ∨
        (E.getenv E.VersionEnvName ≠ "" ∧
          Resolve E defaultVersion = E.getenv E.VersionEnvName) ∨
        isTrimmed (Resolve E defaultVersion) = true) := by
  unfold Resolve resolveLookup pointerFiles
  by_cases henv : E.getenv E.VersionEnvName = ""
  · simp only [henv, ne_eq, not_true_eq_false, if_false, false_and, false_or,
      List.findSome?_cons, List.findSome?_nil, readOpt]
    cases E.readFile E.VersionFileName with
    | ok data => exact ⟨rfl, Or.inr (isTrimmed_TrimSpace data)⟩
    | error e1 =>
      cases E.readFile (pathJoin E.conf.UserPath E.VersionFileName) with
      | ok data => exact ⟨rfl, Or.inr (isTrimmed_TrimSpace data)⟩
      | error e2 =>
        cases E.readFile (RootVersionFilePath E) with
        | ok data => exact ⟨rfl, Or.inr (isTrimmed_TrimSpace data)⟩
        | error e3 => exact ⟨rfl, Or.inl rfl⟩
  · simp only [ne_eq, henv, not_false_eq_true, if_true, true_and]
    exact Or.inr (Or.inl trivial)

/-! ## Remote search and the sorted listings -/

theorem readDirRoot_error (w w2 : World) (err : Err)
    (h : readDirRoot w = (.error err, w2)) : ∃ msg, err = Err.external msg := by
  obtain ⟨root, mkdirErr, readDirErr, trace⟩ := w
  cases root <;> cases readDirErr <;>
    simp only [readDirRoot, World.log, Prod.mk.injEq, Except.error.injEq, reduceCtorEq,
      false_and] at h
  · exact ⟨_, h.1.symm⟩
  · exact ⟨_, h.1.symm⟩
  · exact ⟨_, h.1.symm⟩

/-- An installation never fails with `errNoCompatible`. -/
theorem installSpecificVersion_ne_noCompatible (E : Env) (version : String) (w : World) :
    (installSpecificVersion E version w).1 ≠ some Err.noCompatible := by
  unfold installSpecificVersion
  split
  · simp
  · rcases hrd : readDirRoot (InstallPath E w).2 with ⟨r, w2⟩
    simp only [hrd]
    cases r with
    | error err =>
      obtain ⟨msg, rfl⟩ := readDirRoot_error _ _ _ hrd
      simp
    | ok entries =>
      simp only
      split
      · simp
      · cases E.retriever.DownloadAssetUrl version with
        | error err => simp
        | ok url =>
          simp only
          cases E.httpGet url with
          | error err => simp
          | ok body =>
            simp only [unzipToDir]
            cases E.unzip body (pathJoin (InstallPath E w).1 version) with
            | done => simp
            | failed msg left => cases left <;> simp

theorem splitDots_ne_nil : ∀ (cs cur : List Char), splitDots cs cur ≠ []
  | [], _ => by simp [splitDots]
  | c :: cs, cur => by
    unfold splitDots
    split
    · simp
    · exact splitDots_ne_nil cs (c :: cur)

/-- A version with a pre-release comes strictly before the version with the same
segments and no pre-release. -/
theorem cmpVersion_prerelease_lt (a b : String) (va vb : Version)
    (ha : parseVersion a = some va) (hb : parseVersion b = some vb)
    (hseg : va.segments = vb.segments) (hpa : va.pre ≠ []) (hpb : vb.pre = []) :
    cmpVersion a b = .lt := by
  unfold cmpVersion
  rw [ha, hb]
  simp only [Version.Compare, hseg]
  rw [(Batteries.OrientedCmp.cmp_refl :
    cmpList (compare : Nat → Nat → Ordering) vb.segments vb.segments = .eq)]
  simp only [Ordering.then, preIds, hpa, hpb, if_true, if_false]
  cases hsp : splitDots va.pre [] with
  | nil => exact absurd hsp (splitDots_ne_nil _ _)
  | cons x xs => rfl

/-- Lower numeric segments come strictly first, whatever the pre-releases. -/
theorem cmpVersion_segments_lt (a b : String) (va vb : Version)
    (ha : parseVersion a = some va) (hb : parseVersion b = some vb)
    (hseg : cmpList compare va.segments vb.segments = .lt) :
    cmpVersion a b = .lt := by
  unfold cmpVersion
  rw [ha, hb]
  simp only [Version.Compare, hseg, Ordering.then]

/-- An ascending list that is a permutation of a strictly ascending list is that list. -/
theorem eq_of_perm_of_strict {α : Type} (cmp : α → α → Ordering) [Batteries.OrientedCmp cmp] :
    ∀ (l₁ l₂ : List α), l₁.Perm l₂ → l₁.Pairwise (fun a b => cmp a b ≠ .gt) →
      l₂.Pairwise (fun a b => cmp a b = .lt) → l₁ = l₂
  | [], l₂, hp, _, _ => (List.Perm.nil_eq hp)
  | a :: as, [], hp, _, _ => absurd (List.Perm.eq_nil hp) (List.cons_ne_nil a as)
  | a :: as, b :: bs, hp, h₁, h₂ => by
    rw [List.pairwise_cons] at h₁ h₂
    have hab : a = b := by
      by_contra hne
      have ha : a ∈ bs := by
        rcases List.mem_cons.1 (hp.mem_iff.1 (List.mem_cons_self a as)) with h | h
        · exact absurd h hne
        · exact h
      have hb : b ∈ as := by
        rcases List.mem_cons.1 (hp.mem_iff.2 (List.mem_cons_self b bs)) with h | h
        · exact absurd h.symm hne
        · exact h
      have hgt : cmp a b = .gt := Batteries.OrientedCmp.cmp_eq_gt.2 (h₂.1 a ha)
      exact h₁.1 b hb hgt
    subst hab
    rw [eq_of_perm_of_strict cmp as bs (List.Perm.cons_inv hp) h₁.2 h₂.2]

/-- The four releases of the test are strictly ascending. -/
theorem releases_strict :
    (["1.6.6", "1.7.0-rc1", "1.7.0-rc2", "1.7.0"] : List String).Pairwise
      (fun a b => cmpVersion a b = .lt) := by
  decide

/-- Every ordering of the four releases of the test is sorted into the same list. -/
theorem sortFunc_releases (pdqsort : List String → List String) (L : List String)
    (hp : L.Perm ["1.6.6", "1.7.0-rc1", "1.7.0-rc2", "1.7.0"]) :
    sortFunc pdqsort cmpVersion L = ["1.6.6", "1.7.0-rc1", "1.7.0-rc2", "1.7.0"] :=
  eq_of_perm_of_strict cmpVersion _ _ ((sortFunc_perm cmpVersion pdqsort L).trans hp)
    (sortFunc_sorted cmpVersion pdqsort L) releases_strict

/-- C7. When `ListReleases` succeeds with the list `L`, `ListRemote` sorts it ascending
with the version comparator (a permutation of `L` in which no release is greater than
a later one; the insertion sort of `L` when `L` has at most twelve elements), and
`searchInstallRemote` fails with `errNoCompatible` exactly when no element of `L`
satisfies the predicate. Otherwise it returns the first element of that sorted list
that satisfies the predicate, or the last such element when `reverseOrder` is set; that
element is a least, respectively greatest, satisfying release for the comparator. With
`noInstall` the only call is `ListReleases` and nothing is installed; without it the
returned version is handed to `installSpecificVersion`, whose error is returned with
it. -/
theorem searchInstallRemote_first_match (E : Env) (predicate : String → Bool)
    (noInstall reverseOrder : Bool) (w : World) (L : List String)
    (hlist : E.retriever.ListReleases = .ok L) :
    ∃ sorted,
      (ListRemote E w).1 = .ok sorted ∧ sorted.Perm L ∧
      sorted.Pairwise (fun a b => cmpVersion a b ≠ .gt) ∧
      (L.length ≤ 12 → sorted = insertionSort cmpVersion L) ∧
      ((searchInstallRemote E predicate noInstall reverseOrder w).1.2 = some Err.noCompatible
        ↔ ∀ v ∈ L, predicate v = false) ∧
      ((∃ v ∈ L, predicate v = true) →
        ∃ version,
          (if reverseOrder then (sorted.filter predicate).getLast?
            else (sorted.filter predicate).head?) = some version ∧
          (∀ u ∈ L, predicate u = true →
            if reverseOrder then cmpVersion u version ≠ .gt
            else cmpVersion version u ≠ .gt) ∧
          (searchInstallRemote E predicate noInstall reverseOrder w).1.1 = version ∧
          (if noInstall then
              searchInstallRemote E predicate noInstall reverseOrder w
                = ((version, none), w.log Event.listReleases)
            else
              searchInstallRemote E predicate noInstall reverseOrder w
                = ((version, (installSpecificVersion E version (w.log Event.listReleases)).1),
                    (installSpecificVersion E version (w.log Event.listReleases)).2))) := by
  have hremote : (ListRemote E w).1 = .ok (sortFunc E.pdqsort cmpVersion L) := by
    simp only [ListRemote, hlist]
  have hsearch : searchInstallRemote E predicate noInstall reverseOrder w =
      match (Iterate (sortFunc E.pdqsort cmpVersion L) reverseOrder).find? predicate with
      | some version =>
        if noInstall then ((version, none), w.log Event.listReleases)
        else ((version, (installSpecificVersion E version (w.log Event.listReleases)).1),
          (installSpecificVersion E version (w.log Event.listReleases)).2)
      | none => (("", some Err.noCompatible), w.log Event.listReleases) := by
    simp only [searchInstallRemote, ListRemote, hlist]
  refine ⟨sortFunc E.pdqsort cmpVersion L, hremote, sortFunc_perm cmpVersion E.pdqsort L,
    sortFunc_sorted cmpVersion E.pdqsort L, sortFunc_short cmpVersion E.pdqsort L, ?_, ?_⟩
  · rw [hsearch]
    cases hf : (Iterate (sortFunc E.pdqsort cmpVersion L) reverseOrder).find? predicate with
    | none =>
      simp only [true_iff]
      intro v hv
      rw [List.find?_eq_none] at hf
      have hmem : v ∈ Iterate (sortFunc E.pdqsort cmpVersion L) reverseOrder := by
        cases reverseOrder <;> simp [Iterate, mem_sortFunc, hv]
      simpa using hf v hmem
    | some version =>
      have hp : predicate version = true := List.find?_some hf
      have hmem : version ∈ L := by
        have h1 := List.mem_of_find?_eq_some hf
        have h2 : version ∈ sortFunc E.pdqsort cmpVersion L := by
          cases reverseOrder <;> simpa [Iterate] using h1
        exact (mem_sortFunc cmpVersion E.pdqsort L version).1 h2
      constructor
      · intro h
        exfalso
        cases noInstall with
        | true => simp at h
        | false =>
          simp only [Bool.false_eq_true, if_false] at h
          exact installSpecificVersion_ne_noCompatible E version _ h
      · intro h
        rw [h version hmem] at hp
        exact Bool.noConfusion hp
  · intro hmatch
    have hmatch2 : ∃ v ∈ sortFunc E.pdqsort cmpVersion L, predicate v = true := by
      rcases hmatch with ⟨v, hv, hp⟩
      exact ⟨v, (mem_sortFunc cmpVersion E.pdqsort L v).2 hv, hp⟩
    obtain ⟨version, hfind⟩ :=
      find?_Iterate_isSome (sortFunc E.pdqsort cmpVersion L) reverseOrder predicate hmatch2
    refine ⟨version, ?_, ?_, ?_, ?_⟩
    · rw [← find?_Iterate]
      exact hfind
    · intro u hu hpu
      exact find?_Iterate_extremal (sortFunc E.pdqsort cmpVersion L) reverseOrder predicate
        version (sortFunc_sorted cmpVersion E.pdqsort L) hfind u
        ((mem_sortFunc cmpVersion E.pdqsort L u).2 hu) hpu
    · rw [hsearch, hfind]
      cases noInstall <;> rfl
    · rw [hsearch, hfind]
      cases noInstall <;> simp

/-- Witness of C7: scenario A of the spec, the releases 1.6.6, 1.7.0-rc1, 1.7.0-rc2 and
1.7.0 searched for `>=1.7.0` from the high end, with installation. -/
theorem searchInstallRemote_first_match_witness :
    ∃ sorted,
      (ListRemote (demoEnv false "1.7.0" ["1.7.0-rc2", "1.7.0", "1.6.6", "1.7.0-rc1"])
        (worldWith [])).1 = .ok sorted ∧
      sorted.Perm ["1.7.0-rc2", "1.7.0", "1.6.6", "1.7.0-rc1"] ∧
      sorted.Pairwise (fun a b => cmpVersion a b ≠ .gt) ∧
      sorted = insertionSort cmpVersion ["1.7.0-rc2", "1.7.0", "1.6.6", "1.7.0-rc1"] ∧
      ∃ version,
        (sorted.filter
          (fun v => (parseVersion v).isSome && cmpVersion v "1.7.0" != .lt)).getLast?
          = some version ∧
        (searchInstallRemote (demoEnv false "1.7.0" ["1.7.0-rc2", "1.7.0", "1.6.6", "1.7.0-rc1"])
          (fun v => (parseVersion v).isSome && cmpVersion v "1.7.0" != .lt) false true
          (worldWith [])).1.1 = version :=
  (searchInstallRemote_first_match
    (demoEnv false "1.7.0" ["1.7.0-rc2", "1.7.0", "1.6.6", "1.7.0-rc1"])
    (fun v => (parseVersion v).isSome && cmpVersion v "1.7.0" != .lt) false true
    (worldWith []) ["1.7.0-rc2", "1.7.0", "1.6.6", "1.7.0-rc1"] rfl).elim
    (fun sorted h =>
      (h.2.2.2.2.2 ⟨"1.7.0", by decide, by decide⟩).elim
        (fun version hv =>
          ⟨sorted, h.1, h.2.1, h.2.2.1, h.2.2.2.1 (by decide), version, hv.1, hv.2.2.1⟩))

/-- Scenario A of the spec: empty install root, releases 1.6.6, 1.7.0-rc1, 1.7.0-rc2 and
1.7.0; `detect` of `>=1.7.0` without the local check resolves to 1.7.0 and installs
it. -/
theorem detect_scenarioA :
    detect (demoEnv false "1.7.0" ["1.6.6", "1.7.0-rc1", "1.7.0-rc2", "1.7.0"]) ">=1.7.0" false
        (worldWith [])
      = (("1.7.0", none),
          ⟨some [⟨"1.7.0", true⟩], none, none,
            [Event.listReleases, Event.mkdirAll, Event.readDir,
              Event.downloadAssetUrl "1.7.0", Event.httpGet "asset/1.7.0.zip",
              Event.unzipToDir "/opt/gotofuenv/OpenTofu/1.7.0"]⟩) := by
  decide

/-- With more than twelve releases the release found follows the order in which the
quicksort leaves the releases that compare equal: over thirteen releases ending in
`2.0.0` and `v2.0.0`, the search from the high end returns whichever of the two the
quicksort puts last. -/
theorem searchInstallRemote_tie :
    (searchInstallRemote
        { demoEnv true "2.0.0" thirteenReleases with
          pdqsort := fun _ => thirteenReleases } (fun _ => true) true true
        (worldWith [])).1 = ("v2.0.0", none) ∧
      (searchInstallRemote
        { demoEnv true "2.0.0" thirteenReleases with
          pdqsort := fun _ => thirteenSwapped } (fun _ => true) true true
        (worldWith [])).1 = ("2.0.0", none) := by
  decide

/-- C10. `ListRemote` returns the releases sorted with the version comparator: a
permutation of what `ListReleases` reported in which no version is greater than a later
one, and the same holds for the directory names returned by `ListLocal`. In that order
a version with a pre-release comes strictly before the version with the same segments
and no pre-release, and a version with lower segments comes strictly before one with
higher segments whatever the pre-releases. For every permutation of 1.6.6, 1.7.0-rc1,
1.7.0-rc2, 1.7.0 reported by `ListReleases`, `ListRemote` returns exactly that list. -/
theorem ListRemote_sorted (E : Env) (w : World) (L : List String)
    (hlist : E.retriever.ListReleases = .ok L) :
    (∃ sorted, (ListRemote E w).1 = .ok sorted ∧ sorted.Perm L ∧
        sorted.Pairwise (fun a b => cmpVersion a b ≠ .gt)) ∧
      (∀ versions, (ListLocal E w).1 = .ok versions →
        versions.Perm ((((ListLocal E w).2.root.getD []).filter (fun entry => entry.isDir)).map
            (fun entry => entry.name)) ∧
          versions.Pairwise (fun a b => cmpVersion a b ≠ .gt)) ∧
      (∀ a b va vb, parseVersion a = some va → parseVersion b = some vb →
        (va.segments = vb.segments → va.pre ≠ [] → vb.pre = [] → cmpVersion a b = .lt) ∧
        (cmpList compare va.segments vb.segments = .lt → cmpVersion a b = .lt)) ∧
      (L.Perm ["1.6.6", "1.7.0-rc1", "1.7.0-rc2", "1.7.0"] →
        (ListRemote E w).1 = .ok ["1.6.6", "1.7.0-rc1", "1.7.0-rc2", "1.7.0"]) := by
  have hremote : (ListRemote E w).1 = .ok (sortFunc E.pdqsort cmpVersion L) := by
    simp only [ListRemote, hlist]
  refine ⟨⟨sortFunc E.pdqsort cmpVersion L, hremote, sortFunc_perm cmpVersion E.pdqsort L,
    sortFunc_sorted cmpVersion E.pdqsort L⟩, ?_, ?_, ?_⟩
  · intro versions hlocal
    refine ⟨?_, ListLocal_sorted E w versions hlocal⟩
    rw [ListLocal_ok E w versions hlocal]
    exact sortFunc_perm cmpVersion E.pdqsort _
  · intro a b va vb ha hb
    exact ⟨cmpVersion_prerelease_lt a b va vb ha hb, cmpVersion_segments_lt a b va vb ha hb⟩
  · intro hp
    rw [hremote, sortFunc_releases E.pdqsort L hp]

/-- Witness of C10: the release source reports 1.7.0, 1.7.0-rc2, 1.6.6, 1.7.0-rc1. -/
theorem ListRemote_sorted_witness :
    (ListRemote (demoEnv false "1.7.0" ["1.7.0", "1.7.0-rc2", "1.6.6", "1.7.0-rc1"])
        (worldWith [])).1 = .ok ["1.6.6", "1.7.0-rc1", "1.7.0-rc2", "1.7.0"] :=
  (ListRemote_sorted (demoEnv false "1.7.0" ["1.7.0", "1.7.0-rc2", "1.6.6", "1.7.0-rc1"])
    (worldWith []) ["1.7.0", "1.7.0-rc2", "1.6.6", "1.7.0-rc1"] rfl).2.2.2
    (by decide)
end Gotofuenv
